import Mathlib

/-!
Verification of the population-evolution core of the Empirical repository
(`src/evo/PopulationManager.h` — population managers and the lineage
trackers — and the `World` orchestrator).

The C++ source is shallowly embedded:
* `LineageTracker_Pruned` (the pruning lineage tracker) becomes an explicit
  state machine over `PrunedState`.  The embedding instantiates the
  `POP_MANAGER` template parameter with the default
  `PopulationManager_Base` (so `emp_has_separate_generations = false`,
  exactly the `LineagePruned` alias of the source).
* `std::map<int, Node>` becomes an association list with `Nat` keys;
  `Node*` pointers into the map become the integer keys themselves.
  Pointer comparison of `std::remove` coincides with key comparison because
  each list entry is the address `&nodes[child.id]`.
* `std::set<ORG>` (deduplicated genome store) becomes a membership list of
  genome values; the ordering of the C++ set only fixes iteration order,
  which the tracked claims never observe, so `DecidableEq` suffices.
* `std::map<ORG,int> genome_counts` becomes an association list with `Int`
  values (C++ `int`), with absent keys reading as `0` like `operator[]`.
* machine randomness (`Random::GetInt`, `emp::Shuffle`) is external to the
  repository (`tools/` is not part of the analysed sources); random draws
  are threaded as explicit oracle arguments, and the shuffle used by
  `DoBottleneck` is an abstract permutation parameter.
-/

namespace EmpEvo

/-! ### Association lists with `Nat` keys (embedding of `std::map<int, _>`) -/

/-- Lookup of the first entry with the given key. -/
def alookup {α : Type} : List (Nat × α) → Nat → Option α
  | [], _ => none
  | (j, a) :: t, i => if j = i then some a else alookup t i

/-- `m[i] = a`: replace the entry with key `i`, or append a fresh entry. -/
def ainsert {α : Type} : List (Nat × α) → Nat → α → List (Nat × α)
  | [], i, a => [(i, a)]
  | (j, b) :: t, i, a => if j = i then (i, a) :: t else (j, b) :: ainsert t i a

/-- `m.erase(i)`: drop the first entry with key `i`. -/
def aerase {α : Type} : List (Nat × α) → Nat → List (Nat × α)
  | [], _ => []
  | (j, b) :: t, i => if j = i then t else (j, b) :: aerase t i

/-! ### Generic-key association lists (embedding of `std::map<ORG,int>`) -/

/-- `genome_counts[g]` as read by C++ `operator[]` with default `0`. -/
def getCount {G : Type} [DecidableEq G] : List (G × Int) → G → Int
  | [], _ => 0
  | (k, v) :: t, g => if k = g then v else getCount t g

/-- Store a count, replacing the first entry with this key or appending. -/
def setCount {G : Type} [DecidableEq G] : List (G × Int) → G → Int → List (G × Int)
  | [], g, v => [(g, v)]
  | (k, w) :: t, g, v => if k = g then (g, v) :: t else (k, w) :: setCount t g v

/-- `genomes.erase(g)` on the membership list modelling `std::set<ORG>`. -/
def eraseG {G : Type} [DecidableEq G] : List G → G → List G
  | [], _ => []
  | x :: t, g => if x = g then eraseG t g else x :: eraseG t g

/-- `std::remove`-then-`erase` of a value from a `vector`: drop all
occurrences (the C++ code removes the child pointer from
`curr->parent->offspring`). -/
def removeAll : List Nat → Nat → List Nat
  | [], _ => []
  | x :: t, v => if x = v then removeAll t v else x :: removeAll t v

/-! ### The pruned lineage tracker (`LineageTracker_Pruned`) -/

/-- `LineageTracker_Pruned::Node`.  `parent` and the `offspring` entries are
node-map keys standing for the C++ `Node*` pointers into `nodes`; `genome`
is `none` only for the root sentinel, whose `org_ptr` the C++ code never
initialises (and never dereferences on any reachable execution). -/
structure Node (G : Type) where
  parent : Nat
  id : Nat
  alive : Bool
  genome : Option G
  offspring : List Nat
deriving DecidableEq, Repr

/-- A C++ value-initialised `Node()` (null `parent` pointer modelled as key
0; this default is only produced on paths that are unreachable under the
tracker's invariant, mirroring `std::map::operator[]`). -/
def defaultNode (G : Type) : Node G := ⟨0, 0, false, none, []⟩

/-- The full state of a `LineageTracker_Pruned<PopulationManager_Base>`
(the `LineagePruned` alias): the node map, the deduplicated genome store,
its reference counts, the base-class `parents` map, the id counter `next`,
`last_coalesence`, the slot-to-id map `generation_since_update`, and the
inter-callback registers `next_org_id`, `next_parent_id`, `inject`. -/
structure PrunedState (G : Type) where
  nodes : List (Nat × Node G)
  genomes : List G
  genome_counts : List (G × Int)
  parents : List (Nat × Nat)
  next : Nat
  last_coalesence : Nat
  generation_since_update : List Nat
  next_org_id : Nat
  next_parent_id : Nat
  inject : Bool
deriving DecidableEq, Repr

/-- `LineageTracker_Pruned::Setup`: install the root sentinel
`nodes[0]` with `id = 0`, `parent = &nodes[0]`, `alive = false`.
(`next = 1`, `last_coalesence = 0`, `next_org_id = 1` are the C++ member
initialisers; `next_parent_id` is `-1` in C++ but is written by
`RecordParent` before any read on every event this model performs, so its
initial value is immaterial and modelled as 0.) -/
def Setup (G : Type) : PrunedState G :=
  { nodes := [(0, ⟨0, 0, false, none, []⟩)]
    genomes := []
    genome_counts := []
    parents := []
    next := 1
    last_coalesence := 0
    generation_since_update := []
    next_org_id := 1
    next_parent_id := 0
    inject := false }

/-- `LineageTracker_Pruned::AddOrganism(org, parent)`: allocate id `next++`,
create the node, push it onto its parent's offspring list, insert the
genome into the deduplicated store and update its reference count
(`= 1` on fresh insertion, `++` otherwise), and record the base-class
`parents[id] = parent`.  Returns the new state and the assigned id. -/
def AddOrganism {G : Type} [DecidableEq G] (s : PrunedState G) (org : G) (parent : Nat) :
    PrunedState G × Nat :=
  let id := s.next
  let ns1 := ainsert s.nodes id ⟨parent, id, true, some org, []⟩
  let ns2 :=
    match alookup ns1 parent with
    | some p => ainsert ns1 parent { p with offspring := p.offspring ++ [id] }
    | none => ainsert ns1 parent { defaultNode G with offspring := [id] }
  let gcs :=
    if org ∈ s.genomes then
      (s.genomes, setCount s.genome_counts org (getCount s.genome_counts org + 1))
    else
      (s.genomes ++ [org], setCount s.genome_counts org 1)
  ({ nodes := ns2
     genomes := gcs.1
     genome_counts := gcs.2
     parents := ainsert s.parents id parent
     next := id + 1
     last_coalesence := s.last_coalesence
     generation_since_update := s.generation_since_update
     next_org_id := s.next_org_id
     next_parent_id := s.next_parent_id
     inject := s.inject }, id)

/-- The compaction loop of `TrackPlacement`:
`while (curr->offspring.size() == 0 && !curr->alive)` detach `curr` from its
parent's offspring list, decrement its genome's reference count (erasing the
genome from the store when the count reaches 0), erase `curr` from the node
map, and ascend to the parent.  `fuel` bounds the iterations; every
iteration removes one map entry, so `nodes.length + 1` fuel is never
exhausted.  Returns the updated node map, genome store, counts, and the id
at which the loop stopped. -/
def compactLoop {G : Type} [DecidableEq G] :
    Nat → List (Nat × Node G) → List G → List (G × Int) → Nat →
      List (Nat × Node G) × List G × List (G × Int) × Nat
  | 0, ns, gs, cs, curr => (ns, gs, cs, curr)
  | fuel + 1, ns, gs, cs, curr =>
    match alookup ns curr with
    | none => (ns, gs, cs, curr)
    | some n =>
      if n.offspring = [] ∧ n.alive = false then
        let ns1 :=
          match alookup ns n.parent with
          | some p => ainsert ns n.parent { p with offspring := removeAll p.offspring curr }
          | none => ns
        let gcs :=
          match n.genome with
          | some g =>
            (if getCount cs g - 1 = 0 then eraseG gs g else gs,
             setCount cs g (getCount cs g - 1))
          | none => (gs, cs)
        compactLoop fuel (aerase ns1 curr) gcs.1 gcs.2 n.parent
      else (ns, gs, cs, curr)

/-- The coalescence-advancement loop of `TrackPlacement`:
`while (curr->id == last_coalesence && curr->offspring.size() == 1 &&
!curr->alive) { curr = curr->offspring[0]; last_coalesence = curr->id; }`
(the `!inject` conjunct is hoisted by the caller since `inject` is constant
during the loop).  Returns the final `last_coalesence`. -/
def coalLoop {G : Type} : Nat → List (Nat × Node G) → Nat → Nat → Nat
  | 0, _, lc, _ => lc
  | fuel + 1, ns, lc, curr =>
    match alookup ns curr with
    | none => lc
    | some n =>
      match n.offspring with
      | [c] =>
        if n.id = lc ∧ n.alive = false then
          match alookup ns c with
          | some cn => coalLoop fuel ns cn.id c
          | none => lc
        else lc
      | _ => lc

/-- The conditional `generation_since_update.resize(pos+1)` of
`TrackPlacement` (`if (size() <= pos) resize(pos+1)`): pad with id 0 up to
index `pos` when needed. -/
def genResize (gen : List Nat) (pos : Nat) : List Nat :=
  if gen.length ≤ pos then gen ++ List.replicate (pos + 1 - gen.length) 0 else gen

/-- `LineageTracker_Pruned::TrackPlacement(pos)` for
`separate_generations = false`: resize `generation_since_update` to cover
`pos` (padding with id 0), mark the node of the displaced occupant
`nodes[generation_since_update[pos]]` dead, run the compaction loop from it,
run the coalescence loop from the stop node unless this placement is an
injection, and finally record `generation_since_update[pos] = next_org_id`
(the source re-checks the resize condition before this write; hence the
second `genResize`). -/
def TrackPlacement {G : Type} [DecidableEq G] (s : PrunedState G) (pos : Nat) : PrunedState G :=
  let gen0 := genResize s.generation_since_update pos
  let cid := gen0.getD pos 0
  let ns0 :=
    match alookup s.nodes cid with
    | some _ => s.nodes
    | none => ainsert s.nodes cid (defaultNode G)
  let n0 := (alookup ns0 cid).getD (defaultNode G)
  let ns1 := ainsert ns0 cid { n0 with alive := false }
  let out := compactLoop (ns1.length + 1) ns1 s.genomes s.genome_counts cid
  let lc := if s.inject then s.last_coalesence
            else coalLoop (out.1.length + 1) out.1 s.last_coalesence out.2.2.2
  let gen1 := genResize gen0 pos
  { s with nodes := out.1
           genomes := out.2.1
           genome_counts := out.2.2.1
           last_coalesence := lc
           generation_since_update := gen1.set pos s.next_org_id }

/-- One tracked population event, as the World delivers it to the tracker's
callbacks (§6 ordering): a birth is `OnBeforeRepro(parent_slot)` then
`OnOffspringReady` then `OnOrgPlacement(pos)`; an injection is
`OnInjectReady` then `OnOrgPlacement(pos)`; `update` is `OnUpdate`. -/
inductive Ev (G : Type) where
  | birth : Nat → G → Nat → Ev G
  | inj : G → Nat → Ev G
  | update : Ev G
deriving DecidableEq, Repr

/-- Process one event.  `birth slot org pos` performs
`RecordParent(slot)` (`next_parent_id = generation_since_update[slot]`,
whose out-of-range C++ read is modelled as the post-resize default 0),
`TrackOffspring` (`next_org_id = AddOrganism(org, next_parent_id)`,
`inject = false`) and `TrackPlacement(pos)`.  `inj org pos` performs
`TrackInjectedOffspring` (`AddOrganism(org, 0)`, `inject = true`) and
`TrackPlacement(pos)`.  `update` is `Update(i)`, a no-op when
`separate_generations` is false. -/
def step {G : Type} [DecidableEq G] (s : PrunedState G) : Ev G → PrunedState G
  | .birth slot org pos =>
    let s1 := { s with next_parent_id := s.generation_since_update.getD slot 0 }
    let r := AddOrganism s1 org s1.next_parent_id
    TrackPlacement { r.1 with next_org_id := r.2, inject := false } pos
  | .inj org pos =>
    let r := AddOrganism s org 0
    TrackPlacement { r.1 with next_org_id := r.2, inject := true } pos
  | .update => s

/-- The tracker state after `Setup` followed by a sequence of events. -/
def run {G : Type} [DecidableEq G] (es : List (Ev G)) : PrunedState G :=
  es.foldl step (Setup G)

/-- The walk of `LineageTracker_Pruned::TraceLineageIDs`:
`org = &nodes[org_id]; while (org->id) { push org->id; org = org->parent; }`.
A failed lookup stops the walk (the C++ `operator[]` would default-insert a
node whose `id` field is 0, ending the loop with nothing pushed). -/
def traceGo {G : Type} : Nat → List (Nat × Node G) → Nat → List Nat
  | 0, _, _ => []
  | fuel + 1, ns, i =>
    match alookup ns i with
    | none => []
    | some n => if n.id = 0 then [] else n.id :: traceGo fuel ns n.parent

/-- `LineageTracker_Pruned::TraceLineageIDs(org_id)`.  The parent chain
strictly descends through map keys on every reachable state, so
`nodes.length + 1` fuel is never exhausted. -/
def TraceLineageIDs {G : Type} (s : PrunedState G) (org_id : Nat) : List Nat :=
  traceGo (s.nodes.length + 1) s.nodes org_id

/-- Number of lineage nodes currently referencing a genome value (the
quantity `genome_counts` is meant to track). -/
def refCount {G : Type} [DecidableEq G] : List (Nat × Node G) → G → Nat
  | [], _ => 0
  | (_, n) :: t, g => (if n.genome = some g then 1 else 0) + refCount t g

/-- A node id is rooted: following parent links reaches the root sentinel
(id 0), and every link on the way is mirrored in the parent's offspring
list.  Exactly the reachability used by the retention invariant. -/
inductive Rooted {G : Type} (ns : List (Nat × Node G)) : Nat → Prop where
  | zero : Rooted ns 0
  | succ {i : Nat} {n p : Node G} :
      alookup ns i = some n → i ≠ 0 → alookup ns n.parent = some p →
      i ∈ p.offspring → Rooted ns n.parent → Rooted ns i

/-- `CoalSteps ns a b`: in node map `ns`, id `b` is reached from id `a` by
repeatedly descending from a non-alive node with exactly one surviving child
branch to that child — precisely the moves the coalescence-advancement loop
is allowed to make. -/
inductive CoalSteps {G : Type} (ns : List (Nat × Node G)) : Nat → Nat → Prop where
  | refl (a : Nat) : CoalSteps ns a a
  | step {a b c : Nat} {n : Node G} :
      alookup ns a = some n → n.alive = false → n.offspring = [b] →
      CoalSteps ns b c → CoalSteps ns a c

/-- Structural well-formedness of the node map, with all keys below `bound`
(the id counter `next`): unique keys; the root sentinel at key 0 (its own
parent, never alive, uninitialised genome); every node's `id` field equals
its key; parent links strictly decrease (ids grow monotonically, so a parent
was allocated before its child) and always land on a present node; every
node except the root carries a genome; offspring entries are the keys of
present children whose parent link points back; and every non-root present
node occurs in its parent's offspring list. -/
structure MapInv {G : Type} (ns : List (Nat × Node G)) (bound : Nat) : Prop where
  nodup : (ns.map Prod.fst).Nodup
  root : ∃ n0 : Node G, alookup ns 0 = some n0 ∧ n0.parent = 0 ∧ n0.id = 0 ∧
    n0.alive = false ∧ n0.genome = none
  idField : ∀ i n, alookup ns i = some n → n.id = i
  parentLt : ∀ i n, alookup ns i = some n → i ≠ 0 → n.parent < i
  parentMem : ∀ i n, alookup ns i = some n → ∃ p, alookup ns n.parent = some p
  keysLt : ∀ i n, alookup ns i = some n → i < bound
  genomeSome : ∀ i n, alookup ns i = some n → i ≠ 0 → ∃ g, n.genome = some g
  offChild : ∀ i n c, alookup ns i = some n → c ∈ n.offspring →
    c ≠ 0 ∧ ∃ cn, alookup ns c = some cn ∧ cn.parent = i
  childOff : ∀ i n p, alookup ns i = some n → i ≠ 0 →
    alookup ns n.parent = some p → i ∈ p.offspring

/-- The global invariant of the pruned tracker, holding between events:
the structural map invariant; the retention invariant (a non-alive node
with no surviving offspring branch can only be the root sentinel); every
alive node is rooted; the genome reference counts are exact and the genome
store holds exactly the referenced values; and `generation_since_update`
maps slots to 0 or to distinct alive node ids below `next`. -/
structure Inv {G : Type} [DecidableEq G] (s : PrunedState G) : Prop where
  map : MapInv s.nodes s.next
  deadEmpty : ∀ i n, alookup s.nodes i = some n → n.alive = false → n.offspring = [] → i = 0
  aliveRooted : ∀ i n, alookup s.nodes i = some n → n.alive = true → Rooted s.nodes i
  counts : ∀ g : G, getCount s.genome_counts g = (refCount s.nodes g : Int)
  genomesIff : ∀ g : G, g ∈ s.genomes ↔ refCount s.nodes g ≠ 0
  genAlive : ∀ k, k < s.generation_since_update.length →
    s.generation_since_update.getD k 0 = 0 ∨
      ∃ n, alookup s.nodes (s.generation_since_update.getD k 0) = some n ∧ n.alive = true
  genLt : ∀ k, k < s.generation_since_update.length →
    s.generation_since_update.getD k 0 < s.next
  genDistinct : ∀ k l, k < s.generation_since_update.length →
    l < s.generation_since_update.length → k ≠ l →
    s.generation_since_update.getD k 0 = s.generation_since_update.getD l 0 →
    s.generation_since_update.getD k 0 = 0

/-- Precondition of the compaction loop, at the point where the displaced
node `curr` has just been marked dead: everything of `Inv` that concerns
the node map, counts and store, except that `curr` may violate the
retention invariant; additionally the freshly placed organism's node
`fresh` is alive and `curr` is present. -/
structure LoopPre {G : Type} [DecidableEq G] (ns : List (Nat × Node G)) (gs : List G)
    (cs : List (G × Int)) (bound fresh curr : Nat) : Prop where
  map : MapInv ns bound
  deadEmptyExc : ∀ i n, alookup ns i = some n → n.alive = false → n.offspring = [] →
    i = 0 ∨ i = curr
  aliveRooted : ∀ i n, alookup ns i = some n → n.alive = true → Rooted ns i
  counts : ∀ g : G, getCount cs g = (refCount ns g : Int)
  genomesIff : ∀ g : G, g ∈ gs ↔ refCount ns g ≠ 0
  freshAlive : ∃ fn : Node G, alookup ns fresh = some fn ∧ fn.alive = true
  currMem : ∃ cn : Node G, alookup ns curr = some cn

/-- Postcondition of the compaction loop: the map invariant, exact counts
and store are restored, the retention invariant holds globally again, alive
nodes survived untouched, and the stop node fails the loop condition. -/
structure LoopPost {G : Type} [DecidableEq G] (ns ns' : List (Nat × Node G)) (gs' : List G)
    (cs' : List (G × Int)) (bound fresh stop : Nat) : Prop where
  map : MapInv ns' bound
  deadEmpty : ∀ i n, alookup ns' i = some n → n.alive = false → n.offspring = [] → i = 0
  aliveRooted : ∀ i n, alookup ns' i = some n → n.alive = true → Rooted ns' i
  counts : ∀ g : G, getCount cs' g = (refCount ns' g : Int)
  genomesIff : ∀ g : G, g ∈ gs' ↔ refCount ns' g ≠ 0
  freshAlive : ∃ fn : Node G, alookup ns' fresh = some fn ∧ fn.alive = true
  stopMem : ∃ sn : Node G, alookup ns' stop = some sn ∧
    (sn.alive = true ∨ sn.offspring ≠ [])
  alivePreserved : ∀ i n, alookup ns i = some n → n.alive = true →
    ∃ n', alookup ns' i = some n' ∧ n'.alive = true

/-! ### `PopulationManager_SerialTransfer` (claim C6)

`emp::Shuffle` lives in `tools/random_utils.h`, outside the analysed
sources; `DoBottleneck`'s randomisation is therefore an abstract
permutation parameter `shuffle`.  Modelled from the spec: "shrinks the
population to `new_size`, optionally via uniform random retention (partial
shuffle keeping the first `new_size` entries), destroying the rest." -/

/-- Serial-transfer manager state: the population plus the configuration
`max_size`, `bottleneck_size` (C++ `int`s, modelled as `Nat` — the claims
only involve non-negative configurations) and the counter
`num_bottlenecks`. -/
structure STState (Org : Type) where
  pop : List Org
  max_size : Nat
  bottleneck_size : Nat
  num_bottlenecks : Nat
deriving DecidableEq, Repr

/-- `PopulationManager_Base::DoBottleneck(new_size)` with the default
`choose_random = true`: no-op when already at or below `new_size`,
otherwise shuffle and keep the first `new_size` organisms, destroying the
rest. -/
def DoBottleneck {Org : Type} (shuffle : List Org → List Org) (st : STState Org)
    (new_size : Nat) : STState Org :=
  if st.pop.length ≤ new_size then st
  else { st with pop := (shuffle st.pop).take new_size }

/-- `PopulationManager_SerialTransfer::AddOrgBirth`: when the population has
reached `max_size`, bottleneck down to `bottleneck_size` and count it; then
append the newborn at the end, returning its position. -/
def ST_AddOrgBirth {Org : Type} (shuffle : List Org → List Org) (st : STState Org)
    (org : Org) : STState Org × Nat :=
  let st1 :=
    if st.max_size ≤ st.pop.length then
      let stb := DoBottleneck shuffle st st.bottleneck_size
      { stb with num_bottlenecks := stb.num_bottlenecks + 1 }
    else st
  ({ st1 with pop := st1.pop ++ [org] }, st1.pop.length)

/-- A sequence of births through `AddOrgBirth`. -/
def ST_runBirths {Org : Type} (shuffle : List Org → List Org) (st : STState Org)
    (orgs : List Org) : STState Org :=
  orgs.foldl (fun s o => (ST_AddOrgBirth shuffle s o).1) st

/-! ### `World::EliteSelect` (claim C7)

Fitness is `double` in C++; the model is generic over a linear order of
fitness values (the claims use integer fitnesses).  `EliteSelect` is
modelled as the sequence of parent indices handed to `InsertBirth`
(`copy_count` copies each); which slots those births land in is the
population manager's business and is irrelevant to the claim. -/

/-- One `std::multimap<double,int>::insert`: the multimap is kept sorted by
key, and an equal key is inserted at the upper bound of its equal range
(after all existing entries with that key). -/
def mmInsert {F : Type} [LinearOrder F] (p : F × Nat) : List (F × Nat) → List (F × Nat)
  | [] => [p]
  | q :: t => if p.1 < q.1 then p :: q :: t else q :: mmInsert p t

/-- The `fit_map` built by `EliteSelect`: insert `(fit_fun(pop[i]), i)` for
`i = 0, …, n-1`. -/
def fitMap {F : Type} [LinearOrder F] (fit : Nat → F) (n : Nat) : List (F × Nat) :=
  (List.range n).foldl (fun m i => mmInsert (fit i, i) m) []

/-- `World::EliteSelect(fit_fun, e_count, copy_count)`: walk the fitness
multimap from its largest entry backwards (`rbegin`), and for each of the
first `e_count` entries call `InsertBirth(org, copy_count)`.  Result: the
indices of the organisms birthed, in birth order. -/
def EliteSelect {F : Type} [LinearOrder F] (fit : Nat → F) (n e_count copy_count : Nat) :
    List Nat :=
  ((fitMap fit n).reverse.take e_count).flatMap (fun p => List.replicate copy_count p.2)

/-- Descending-fitness ranking order in which ties are broken by *reverse*
insertion order (the larger index ranks first) — what reverse iteration of
the multimap actually implements. -/
def fitOrdRev {F : Type} [LinearOrder F] (a b : F × Nat) : Prop :=
  b.1 < a.1 ∨ (a.1 = b.1 ∧ b.2 ≤ a.2)

/-- Descending-fitness ranking order in which ties are broken *stably* by
insertion order (the smaller index ranks first) — the reading of the claim
"ties broken stably by insertion/iteration order". -/
def fitOrdStable {F : Type} [LinearOrder F] (a b : F × Nat) : Prop :=
  b.1 < a.1 ∨ (a.1 = b.1 ∧ a.2 ≤ b.2)

instance {F : Type} [LinearOrder F] : DecidableRel (@fitOrdRev F _) := fun a b => by
  unfold fitOrdRev; exact inferInstance

instance {F : Type} [LinearOrder F] : DecidableRel (@fitOrdStable F _) := fun a b => by
  unfold fitOrdStable; exact inferInstance

/-- The strict order that repeated `mmInsert`s actually maintain along the
multimap: ascending fitness, with equal fitnesses in ascending insertion
order (later inserts land after the equal range). -/
def fitOrdStrict {F : Type} [LinearOrder F] (a b : F × Nat) : Prop :=
  a.1 < b.1 ∨ (a.1 = b.1 ∧ a.2 < b.2)

instance {F : Type} [LinearOrder F] : IsTrans (F × Nat) fitOrdRev where
  trans := by
    intro a b c hab hbc
    simp only [fitOrdRev] at hab hbc ⊢
    rcases hab with h1 | h1 <;> rcases hbc with h2 | h2
    · exact Or.inl (lt_trans h2 h1)
    · exact Or.inl (by rw [← h2.1]; exact h1)
    · exact Or.inl (by rw [h1.1]; exact h2)
    · exact Or.inr ⟨h1.1.trans h2.1, h2.2.trans h1.2⟩

instance {F : Type} [LinearOrder F] : IsTotal (F × Nat) fitOrdRev where
  total := by
    intro a b
    simp only [fitOrdRev]
    rcases lt_trichotomy a.1 b.1 with h | h | h
    · exact Or.inr (Or.inl h)
    · rcases Nat.le_total b.2 a.2 with h2 | h2
      · exact Or.inl (Or.inr ⟨h, h2⟩)
      · exact Or.inr (Or.inr ⟨h.symm, h2⟩)
    · exact Or.inl (Or.inl h)

instance {F : Type} [LinearOrder F] : IsAntisymm (F × Nat) fitOrdRev where
  antisymm := by
    intro a b hab hba
    simp only [fitOrdRev] at hab hba
    rcases hab with h1 | h1 <;> rcases hba with h2 | h2
    · exact absurd h2 (lt_asymm h1)
    · exact absurd (h2.1 ▸ h1) (lt_irrefl _)
    · exact absurd (h1.1 ▸ h2) (lt_irrefl _)
    · exact Prod.ext h1.1 (Nat.le_antisymm h2.2 h1.2)

/-- The independently specified elite ranking: all `(fitness, index)` pairs
sorted by `fitOrdRev`. -/
def eliteRanking {F : Type} [LinearOrder F] (fit : Nat → F) (n : Nat) : List (F × Nat) :=
  List.insertionSort fitOrdRev ((List.range n).map (fun i => (fit i, i)))

/-- The claim's stable reading of elite selection: rank by fitness with
ties broken stably by insertion order, take the top `e_count`, birth
`copy_count` copies of each. -/
def EliteSelectStable {F : Type} [LinearOrder F] (fit : Nat → F) (n e_count copy_count : Nat) :
    List Nat :=
  ((List.insertionSort fitOrdStable ((List.range n).map (fun i => (fit i, i)))).take
    e_count).flatMap (fun p => List.replicate copy_count p.2)

/-- The §8 fitness assignment: five organisms with fitness 1, 5, 3, 2, 4. -/
def fit5 : Nat → Int := fun i => [1, 5, 3, 2, 4].getD i 0

/-! ### `PopulationManager_Grid::AddOrg` (claim C8) -/

/-- `PopulationManager_Grid::GetValidOrgIndices()`: the indices of the
currently empty (`nullptr`) slots, in increasing order. -/
def GetValidOrgIndices {Org : Type} (pop : List (Option Org)) : List Nat :=
  (List.range pop.length).filter (fun i => (pop.getD i none).isNone)

/-- `PopulationManager_Grid::AddOrg(new_org)`: draw
`pos = GetInt(empty_spots.size())` (the draw is the oracle argument `r`),
place the organism at `empty_spots[pos]` and return that slot.  On a full
grid `empty_spots` is empty and the C++ accesses
`empty_spots[GetInt(0)]` out of bounds; that failure is modelled as
`none`. -/
def Grid_AddOrg {Org : Type} (pop : List (Option Org)) (org : Org) (r : Nat) :
    Option (Nat × List (Option Org)) :=
  match (GetValidOrgIndices pop)[r]? with
  | some idx => some (idx, pop.set idx (some org))
  | none => none

/-! ### `World::MutatePop` (claims C9, C10)

The mutation function receives the organism and the shared random engine;
it is modelled as `Org → R → Bool × Org × R`, threading the engine state
`R` through the calls in loop order. -/

/-- The loop of `MutatePop`: `for (i = 1; i < pop.size(); i++) if
(mut_fun(pop[i], random)) mut_count++`, mutating `pop[i]` in place.  `fuel`
bounds the iterations (`pop.length` suffices since the loop starts at 1). -/
def mutateGo {Org R : Type} (mf : Org → R → Bool × Org × R) :
    Nat → List Org → Nat → Nat → R → Nat × List Org × R
  | 0, pop, _, count, r => (count, pop, r)
  | fuel + 1, pop, i, count, r =>
    match pop[i]? with
    | none => (count, pop, r)
    | some o =>
      let br := mf o r
      mutateGo mf fuel (pop.set i br.2.1) (i + 1) (count + if br.1 then 1 else 0) br.2.2

/-- `World::MutatePop(mut_fun, first_mut)`: note that the loop starts at
the literal index 1 — the `first_mut` parameter (C++ `int`, default 1) is
never read. -/
def MutatePop {Org R : Type} (mf : Org → R → Bool × Org × R) (pop : List Org)
    (first_mut : Int) (r : R) : Nat × List Org × R :=
  mutateGo mf pop.length pop 1 0 r

/-- Independent specification of a full mutation pass over a list: apply
the mutation function to every element in order, returning how many calls
reported a mutation, the mutated list, and the final engine state. -/
def mutateAll {Org R : Type} (mf : Org → R → Bool × Org × R) :
    List Org → R → Nat × List Org × R
  | [], r => (0, [], r)
  | o :: t, r =>
    let br := mf o r
    let rest := mutateAll mf t br.2.2
    ((if br.1 then 1 else 0) + rest.1, br.2.1 :: rest.2.1, rest.2.2)

/-! ### Toolkit lemmas: association lists -/

theorem alookup_cons_self {α : Type} (k : Nat) (b : α) (t : List (Nat × α)) :
    alookup ((k, b) :: t) k = some b := by
  simp [alookup]

theorem alookup_cons_ne {α : Type} {k i : Nat} (b : α) (t : List (Nat × α)) (h : k ≠ i) :
    alookup ((k, b) :: t) i = alookup t i := by
  simp [alookup, h]

theorem ainsert_cons_self {α : Type} (k : Nat) (b a : α) (t : List (Nat × α)) :
    ainsert ((k, b) :: t) k a = (k, a) :: t := by
  simp [ainsert]

theorem ainsert_cons_ne {α : Type} {k i : Nat} (b a : α) (t : List (Nat × α)) (h : k ≠ i) :
    ainsert ((k, b) :: t) i a = (k, b) :: ainsert t i a := by
  simp [ainsert, h]

theorem aerase_cons_self {α : Type} (k : Nat) (b : α) (t : List (Nat × α)) :
    aerase ((k, b) :: t) k = t := by
  simp [aerase]

theorem aerase_cons_ne {α : Type} {k i : Nat} (b : α) (t : List (Nat × α)) (h : k ≠ i) :
    aerase ((k, b) :: t) i = (k, b) :: aerase t i := by
  simp [aerase, h]

theorem alookup_ainsert {α : Type} (l : List (Nat × α)) (i : Nat) (a : α) (j : Nat) :
    alookup (ainsert l i a) j = if i = j then some a else alookup l j := by
  induction l with
  | nil =>
    by_cases h : i = j
    · subst h; simp [ainsert, alookup]
    · simp [ainsert, alookup, h]
  | cons q t ih =>
    obtain ⟨k, b⟩ := q
    by_cases hk : k = i
    · subst hk
      rw [ainsert_cons_self]
      by_cases h : k = j
      · subst h; rw [alookup_cons_self, if_pos rfl]
      · rw [alookup_cons_ne _ _ h, alookup_cons_ne _ _ h, if_neg h]
    · rw [ainsert_cons_ne _ _ _ hk]
      by_cases h : k = j
      · subst h
        rw [alookup_cons_self, alookup_cons_self, if_neg (fun hh => hk hh.symm)]
      · rw [alookup_cons_ne _ _ h, alookup_cons_ne _ _ h, ih]

theorem alookup_aerase_ne {α : Type} (l : List (Nat × α)) (i j : Nat) (hij : i ≠ j) :
    alookup (aerase l i) j = alookup l j := by
  induction l with
  | nil => simp [aerase]
  | cons q t ih =>
    obtain ⟨k, b⟩ := q
    by_cases hk : k = i
    · subst hk
      rw [aerase_cons_self, alookup_cons_ne _ _ hij]
    · rw [aerase_cons_ne _ _ hk]
      by_cases h : k = j
      · subst h; rw [alookup_cons_self, alookup_cons_self]
      · rw [alookup_cons_ne _ _ h, alookup_cons_ne _ _ h, ih]

theorem alookup_mem {α : Type} {l : List (Nat × α)} {i : Nat} {a : α}
    (h : alookup l i = some a) : (i, a) ∈ l := by
  induction l with
  | nil => simp [alookup] at h
  | cons q t ih =>
    obtain ⟨k, b⟩ := q
    by_cases hk : k = i
    · subst hk
      rw [alookup_cons_self] at h
      cases h
      exact List.mem_cons_self _ _
    · rw [alookup_cons_ne _ _ hk] at h
      exact List.mem_cons_of_mem _ (ih h)

theorem alookup_aerase_self {α : Type} (l : List (Nat × α)) (i : Nat)
    (h : (l.map Prod.fst).Nodup) : alookup (aerase l i) i = none := by
  induction l with
  | nil => simp [aerase, alookup]
  | cons q t ih =>
    obtain ⟨k, b⟩ := q
    simp only [List.map_cons, List.nodup_cons] at h
    by_cases hk : k = i
    · subst hk
      rw [aerase_cons_self]
      cases he : alookup t k with
      | none => rfl
      | some c =>
        exact absurd (List.mem_map.2 ⟨(k, c), alookup_mem he, rfl⟩) h.1
    · rw [aerase_cons_ne _ _ hk, alookup_cons_ne _ _ hk]
      exact ih h.2

theorem alookup_eq_none {α : Type} {l : List (Nat × α)} {i : Nat} :
    alookup l i = none ↔ i ∉ l.map Prod.fst := by
  induction l with
  | nil => simp [alookup]
  | cons q t ih =>
    obtain ⟨k, b⟩ := q
    by_cases hk : k = i
    · subst hk
      rw [alookup_cons_self]
      simp
    · rw [alookup_cons_ne _ _ hk]
      simp only [List.map_cons, List.mem_cons]
      rw [ih]
      constructor
      · rintro hn (h | h)
        · exact hk h.symm
        · exact hn h
      · intro hn h
        exact hn (Or.inr h)

theorem alookup_isSome {α : Type} {l : List (Nat × α)} {i : Nat}
    (h : i ∈ l.map Prod.fst) : ∃ a, alookup l i = some a := by
  cases he : alookup l i with
  | none => exact absurd (alookup_eq_none.1 he) (by simpa using h)
  | some a => exact ⟨a, rfl⟩

theorem mem_fst_of_alookup {α : Type} {l : List (Nat × α)} {i : Nat} {a : α}
    (h : alookup l i = some a) : i ∈ l.map Prod.fst :=
  List.mem_map.2 ⟨(i, a), alookup_mem h, rfl⟩

theorem ainsert_of_not_mem {α : Type} {l : List (Nat × α)} {i : Nat} (a : α)
    (h : i ∉ l.map Prod.fst) : ainsert l i a = l ++ [(i, a)] := by
  induction l with
  | nil => simp [ainsert]
  | cons q t ih =>
    obtain ⟨k, b⟩ := q
    simp only [List.map_cons, List.mem_cons] at h
    push_neg at h
    rw [ainsert_cons_ne _ _ _ (fun hh => h.1 hh.symm), ih h.2]
    rfl

theorem map_fst_ainsert_mem {α : Type} {l : List (Nat × α)} {i : Nat} (a : α)
    (h : i ∈ l.map Prod.fst) : (ainsert l i a).map Prod.fst = l.map Prod.fst := by
  induction l with
  | nil => simp at h
  | cons q t ih =>
    obtain ⟨k, b⟩ := q
    by_cases hk : k = i
    · subst hk
      rw [ainsert_cons_self]
      simp
    · simp only [List.map_cons, List.mem_cons] at h
      rcases h with h | h
      · exact absurd h.symm hk
      · rw [ainsert_cons_ne _ _ _ hk]
        simp only [List.map_cons, ih h]

theorem nodup_ainsert {α : Type} {l : List (Nat × α)} {i : Nat} (a : α)
    (h : (l.map Prod.fst).Nodup) : ((ainsert l i a).map Prod.fst).Nodup := by
  by_cases hm : i ∈ l.map Prod.fst
  · rw [map_fst_ainsert_mem a hm]; exact h
  · rw [ainsert_of_not_mem a hm]
    rw [List.map_append]
    apply List.Nodup.append h (by simp)
    intro x hx hx'
    simp only [List.map_cons, List.map_nil, List.mem_singleton] at hx'
    subst hx'
    exact hm hx

theorem length_ainsert_mem {α : Type} {l : List (Nat × α)} {i : Nat} (a : α)
    (h : i ∈ l.map Prod.fst) : (ainsert l i a).length = l.length := by
  have hm := map_fst_ainsert_mem a h (l := l)
  have h1 : ((ainsert l i a).map Prod.fst).length = (l.map Prod.fst).length := by rw [hm]
  simpa using h1

theorem length_aerase_mem {α : Type} {l : List (Nat × α)} {i : Nat}
    (h : i ∈ l.map Prod.fst) : (aerase l i).length + 1 = l.length := by
  induction l with
  | nil => simp at h
  | cons q t ih =>
    obtain ⟨k, b⟩ := q
    by_cases hk : k = i
    · subst hk
      rw [aerase_cons_self]
      simp
    · simp only [List.map_cons, List.mem_cons] at h
      rcases h with h | h
      · exact absurd h.symm hk
      · rw [aerase_cons_ne _ _ hk]
        simp only [List.length_cons, ih h]

theorem map_fst_aerase_sublist {α : Type} (l : List (Nat × α)) (i : Nat) :
    ((aerase l i).map Prod.fst).Sublist (l.map Prod.fst) := by
  induction l with
  | nil => simp [aerase]
  | cons q t ih =>
    obtain ⟨k, b⟩ := q
    by_cases hk : k = i
    · subst hk
      rw [aerase_cons_self]
      simp only [List.map_cons]
      exact List.sublist_cons_of_sublist _ (List.Sublist.refl _)
    · rw [aerase_cons_ne _ _ hk]
      simp only [List.map_cons]
      exact List.Sublist.cons₂ _ ih

theorem nodup_aerase {α : Type} {l : List (Nat × α)} {i : Nat}
    (h : (l.map Prod.fst).Nodup) : ((aerase l i).map Prod.fst).Nodup :=
  (map_fst_aerase_sublist l i).nodup h

/-! ### Toolkit lemmas: counts, genome store, offspring lists -/

theorem getCount_setCount {G : Type} [DecidableEq G] (cs : List (G × Int)) (g : G) (v : Int)
    (g' : G) : getCount (setCount cs g v) g' = if g = g' then v else getCount cs g' := by
  induction cs with
  | nil => by_cases h : g = g' <;> simp [setCount, getCount, h]
  | cons q t ih =>
    obtain ⟨k, w⟩ := q
    by_cases hk : k = g
    · subst hk
      by_cases h : k = g' <;> simp [setCount, getCount, h]
    · by_cases h : k = g'
      · subst h
        have : ¬ g = k := fun hh => hk hh.symm
        simp [setCount, getCount, hk, this]
      · simp [setCount, getCount, hk, h, ih]

theorem eraseG_cons_self {G : Type} [DecidableEq G] (g : G) (t : List G) :
    eraseG (g :: t) g = eraseG t g := by
  simp [eraseG]

theorem eraseG_cons_ne {G : Type} [DecidableEq G] {y g : G} (t : List G) (h : y ≠ g) :
    eraseG (y :: t) g = y :: eraseG t g := by
  simp [eraseG, h]

theorem mem_eraseG {G : Type} [DecidableEq G] (gs : List G) (g x : G) :
    x ∈ eraseG gs g ↔ x ∈ gs ∧ x ≠ g := by
  induction gs with
  | nil => simp [eraseG]
  | cons y t ih =>
    by_cases hy : y = g
    · subst hy
      rw [eraseG_cons_self, ih]
      simp only [List.mem_cons]
      constructor
      · rintro ⟨h1, h2⟩; exact ⟨Or.inr h1, h2⟩
      · rintro ⟨h1 | h1, h2⟩
        · exact absurd h1 h2
        · exact ⟨h1, h2⟩
    · rw [eraseG_cons_ne _ hy]
      simp only [List.mem_cons, ih]
      constructor
      · rintro (h | ⟨h1, h2⟩)
        · exact ⟨Or.inl h, h ▸ hy⟩
        · exact ⟨Or.inr h1, h2⟩
      · rintro ⟨h1 | h1, h2⟩
        · exact Or.inl h1
        · exact Or.inr ⟨h1, h2⟩

theorem removeAll_cons_self (v : Nat) (t : List Nat) :
    removeAll (v :: t) v = removeAll t v := by
  simp [removeAll]

theorem removeAll_cons_ne {y v : Nat} (t : List Nat) (h : y ≠ v) :
    removeAll (y :: t) v = y :: removeAll t v := by
  simp [removeAll, h]

theorem mem_removeAll (l : List Nat) (v x : Nat) :
    x ∈ removeAll l v ↔ x ∈ l ∧ x ≠ v := by
  induction l with
  | nil => simp [removeAll]
  | cons y t ih =>
    by_cases hy : y = v
    · subst hy
      rw [removeAll_cons_self, ih]
      simp only [List.mem_cons]
      constructor
      · rintro ⟨h1, h2⟩; exact ⟨Or.inr h1, h2⟩
      · rintro ⟨h1 | h1, h2⟩
        · exact absurd h1 h2
        · exact ⟨h1, h2⟩
    · rw [removeAll_cons_ne _ hy]
      simp only [List.mem_cons, ih]
      constructor
      · rintro (h | ⟨h1, h2⟩)
        · exact ⟨Or.inl h, h ▸ hy⟩
        · exact ⟨Or.inr h1, h2⟩
      · rintro ⟨h1 | h1, h2⟩
        · exact Or.inl h1
        · exact Or.inr ⟨h1, h2⟩

theorem refCount_append {G : Type} [DecidableEq G] (l1 l2 : List (Nat × Node G)) (g : G) :
    refCount (l1 ++ l2) g = refCount l1 g + refCount l2 g := by
  induction l1 with
  | nil => simp [refCount]
  | cons q t ih =>
    obtain ⟨k, n⟩ := q
    simp [refCount, ih]
    omega

theorem refCount_ainsert_not_mem {G : Type} [DecidableEq G] {l : List (Nat × Node G)}
    {i : Nat} (n : Node G) (g : G) (h : i ∉ l.map Prod.fst) :
    refCount (ainsert l i n) g = refCount l g + (if n.genome = some g then 1 else 0) := by
  rw [ainsert_of_not_mem n h, refCount_append]
  simp [refCount]

theorem refCount_cons {G : Type} [DecidableEq G] (k : Nat) (n : Node G)
    (t : List (Nat × Node G)) (g : G) :
    refCount ((k, n) :: t) g = (if n.genome = some g then 1 else 0) + refCount t g := rfl

theorem refCount_ainsert_mem {G : Type} [DecidableEq G] {l : List (Nat × Node G)}
    {i : Nat} {m : Node G} (n : Node G) (g : G) (h : alookup l i = some m) :
    refCount (ainsert l i n) g + (if m.genome = some g then 1 else 0) =
      refCount l g + (if n.genome = some g then 1 else 0) := by
  induction l with
  | nil => simp [alookup] at h
  | cons q t ih =>
    obtain ⟨k, b⟩ := q
    by_cases hk : k = i
    · subst hk
      rw [alookup_cons_self] at h
      cases h
      rw [ainsert_cons_self, refCount_cons, refCount_cons]
      omega
    · rw [alookup_cons_ne _ _ hk] at h
      rw [ainsert_cons_ne _ _ _ hk, refCount_cons, refCount_cons]
      have := ih h
      omega

theorem refCount_ainsert_same_genome {G : Type} [DecidableEq G] {l : List (Nat × Node G)}
    {i : Nat} {m : Node G} (n : Node G) (g : G) (h : alookup l i = some m)
    (hg : n.genome = m.genome) : refCount (ainsert l i n) g = refCount l g := by
  have := refCount_ainsert_mem n g h
  rw [hg] at this
  omega

theorem refCount_aerase {G : Type} [DecidableEq G] {l : List (Nat × Node G)}
    {i : Nat} {m : Node G} (g : G) (h : alookup l i = some m) :
    refCount (aerase l i) g + (if m.genome = some g then 1 else 0) = refCount l g := by
  induction l with
  | nil => simp [alookup] at h
  | cons q t ih =>
    obtain ⟨k, b⟩ := q
    by_cases hk : k = i
    · subst hk
      rw [alookup_cons_self] at h
      cases h
      rw [aerase_cons_self, refCount_cons]
      omega
    · rw [alookup_cons_ne _ _ hk] at h
      rw [aerase_cons_ne _ _ hk, refCount_cons, refCount_cons]
      have := ih h
      omega

theorem refCount_pos {G : Type} [DecidableEq G] {l : List (Nat × Node G)} {i : Nat}
    {n : Node G} {g : G} (h : alookup l i = some n) (hg : n.genome = some g) :
    1 ≤ refCount l g := by
  induction l with
  | nil => simp [alookup] at h
  | cons q t ih =>
    obtain ⟨k, b⟩ := q
    by_cases hk : k = i
    · subst hk
      rw [alookup_cons_self] at h
      cases h
      rw [refCount_cons]
      simp [hg]
    · rw [alookup_cons_ne _ _ hk] at h
      rw [refCount_cons]
      have := ih h
      omega

/-! ### Toolkit lemmas: `getD` on `Nat` lists -/

theorem getD_pad (l : List Nat) (m k : Nat) :
    (l ++ List.replicate m 0).getD k 0 = if k < l.length then l.getD k 0 else 0 := by
  rw [List.getD_eq_getElem?_getD, List.getD_eq_getElem?_getD]
  by_cases h : k < l.length
  · rw [List.getElem?_append_left h, if_pos h]
  · push_neg at h
    rw [List.getElem?_append_right h, if_neg (not_lt.2 h), List.getElem?_replicate]
    by_cases hm : k - l.length < m <;> simp [hm]

theorem getD_set (l : List Nat) (p v k : Nat) :
    (l.set p v).getD k 0 = if p = k ∧ p < l.length then v else l.getD k 0 := by
  rw [List.getD_eq_getElem?_getD, List.getD_eq_getElem?_getD, List.getElem?_set]
  by_cases h : p = k
  · subst h
    by_cases hl : p < l.length
    · simp [hl]
    · simp only [hl, if_neg, ite_false, and_false, if_false, true_and]
      rw [List.getElem?_eq_none (not_lt.1 hl)]
      simp [hl]
  · simp [h]

theorem getD_lt_length (l : List Nat) (k : Nat) (h : l.length ≤ k) : l.getD k 0 = 0 := by
  rw [List.getD_eq_getElem?_getD, List.getElem?_eq_none h]
  rfl

/-! ### Toolkit lemmas: `Rooted` and `CoalSteps` -/

/-- Rootedness is preserved by map updates that keep every node's key and
parent link and only grow offspring lists. -/
theorem rooted_of_map_le {G : Type} {ns ns' : List (Nat × Node G)}
    (H : ∀ j m, alookup ns j = some m → ∃ m', alookup ns' j = some m' ∧
      m'.parent = m.parent ∧ ∀ x ∈ m.offspring, x ∈ m'.offspring)
    {a : Nat} (h : Rooted ns a) : Rooted ns' a := by
  induction h with
  | zero => exact Rooted.zero
  | succ h1 h2 h3 h4 _ ih =>
    obtain ⟨n', hn', hpar, _⟩ := H _ _ h1
    obtain ⟨p', hp', _, hpoff⟩ := H _ _ h3
    exact Rooted.succ hn' h2 (by rw [hpar]; exact hp') (hpoff _ h4) (hpar ▸ ih)

/-- A rooted non-root node witnesses that the root's offspring list is
non-empty. -/
theorem rooted_root_child {G : Type} {ns : List (Nat × Node G)} {a : Nat}
    (h : Rooted ns a) (ha : a ≠ 0) :
    ∃ n0 : Node G, alookup ns 0 = some n0 ∧ n0.offspring ≠ [] := by
  induction h with
  | zero => exact absurd rfl ha
  | succ h1 h2 h3 h4 h5 ih =>
    rename_i i n p
    by_cases hp : n.parent = 0
    · rw [hp] at h3
      exact ⟨p, h3, List.ne_nil_of_mem h4⟩
    · exact ih hp

/-- Rootedness survives one iteration of the compaction body (detach the
dead, offspring-less node `curr` from its parent `P` and erase it), for any
node that is alive or still has offspring. -/
theorem rooted_compact_body {G : Type} {ns : List (Nat × Node G)} {curr : Nat}
    {n p : Node G} (hcur : alookup ns curr = some n) (hdead : n.alive = false)
    (hemp : n.offspring = []) (hp : alookup ns n.parent = some p)
    {a : Nat} (h : Rooted ns a) :
    (∃ na : Node G, alookup ns a = some na ∧ (na.alive = true ∨ na.offspring ≠ [])) →
    Rooted (aerase (ainsert ns n.parent
      { p with offspring := removeAll p.offspring curr }) curr) a := by
  induction h with
  | zero => exact fun _ => Rooted.zero
  | succ h1 h2 h3 h4 h5 ih =>
    rename_i i n' p'
    intro hside
    obtain ⟨na, hna, hor⟩ := hside
    rw [h1] at hna
    cases hna
    have hicurr : i ≠ curr := by
      intro he
      subst he
      rw [h1] at hcur
      cases hcur
      rcases hor with hor | hor
      · rw [hdead] at hor; cases hor
      · exact hor hemp
    have hpcurr : n'.parent ≠ curr := by
      intro he
      rw [he, hcur] at h3
      cases h3
      rw [hemp] at h4
      cases h4
    have hlook : ∀ j : Nat, j ≠ curr →
        alookup (aerase (ainsert ns n.parent
          { p with offspring := removeAll p.offspring curr }) curr) j =
        (if n.parent = j then some { p with offspring := removeAll p.offspring curr }
         else alookup ns j) := by
      intro j hj
      rw [alookup_aerase_ne _ _ _ (fun he => hj he.symm), alookup_ainsert]
    have hparent2 : Rooted (aerase (ainsert ns n.parent
        { p with offspring := removeAll p.offspring curr }) curr) n'.parent :=
      ih ⟨p', h3, Or.inr (List.ne_nil_of_mem h4)⟩
    by_cases hPi : n.parent = i
    · -- the updated parent node is the chain node `i` itself
      have h1p : alookup ns i = some p := by rw [← hPi]; exact hp
      have hpeq : n' = p := by
        rw [h1] at h1p
        exact Option.some.inj h1p
      rw [hpeq] at h1 h3 hpcurr hparent2
      have h1' : alookup (aerase (ainsert ns n.parent
          { p with offspring := removeAll p.offspring curr }) curr) i =
          some { p with offspring := removeAll p.offspring curr } := by
        rw [hlook i hicurr, if_pos hPi]
      by_cases hpp : n.parent = p.parent
      · have h3p : alookup ns n.parent = some p' := by rw [hpp]; exact h3
        rw [hp] at h3p
        have hpsame : p' = p := (Option.some.inj h3p).symm
        rw [hpsame] at h3 h4
        have h3' : alookup (aerase (ainsert ns n.parent
            { p with offspring := removeAll p.offspring curr }) curr) p.parent =
            some { p with offspring := removeAll p.offspring curr } := by
          rw [hlook p.parent hpcurr, if_pos hpp]
        have h4' : i ∈ removeAll p.offspring curr := (mem_removeAll _ _ _).2 ⟨h4, hicurr⟩
        exact Rooted.succ h1' h2 h3' h4' hparent2
      · have h3' : alookup (aerase (ainsert ns n.parent
            { p with offspring := removeAll p.offspring curr }) curr) p.parent = some p' := by
          rw [hlook p.parent hpcurr, if_neg hpp]
          exact h3
        exact Rooted.succ h1' h2 h3' h4 hparent2
    · have h1' : alookup (aerase (ainsert ns n.parent
          { p with offspring := removeAll p.offspring curr }) curr) i = some n' := by
        rw [hlook i hicurr, if_neg hPi]
        exact h1
      by_cases hpp : n.parent = n'.parent
      · have h3p : alookup ns n.parent = some p' := by rw [hpp]; exact h3
        rw [hp] at h3p
        have hpsame : p' = p := (Option.some.inj h3p).symm
        rw [hpsame] at h3 h4
        have h3' : alookup (aerase (ainsert ns n.parent
            { p with offspring := removeAll p.offspring curr }) curr) n'.parent =
            some { p with offspring := removeAll p.offspring curr } := by
          rw [hlook n'.parent hpcurr, if_pos hpp]
        have h4' : i ∈ removeAll p.offspring curr := (mem_removeAll _ _ _).2 ⟨h4, hicurr⟩
        exact Rooted.succ h1' h2 h3' h4' hparent2
      · have h3' : alookup (aerase (ainsert ns n.parent
            { p with offspring := removeAll p.offspring curr }) curr) n'.parent =
            some p' := by
          rw [hlook n'.parent hpcurr, if_neg hpp]
          exact h3
        exact Rooted.succ h1' h2 h3' h4 hparent2

/-- Whatever the coalescence loop computes is related to its starting value
by `CoalSteps` (it either stays put or descends through dead single-child
nodes). -/
theorem coalLoop_coalSteps {G : Type} (ns : List (Nat × Node G))
    (hid : ∀ i n, alookup ns i = some n → n.id = i) :
    ∀ fuel lc curr, CoalSteps ns lc (coalLoop fuel ns lc curr) := by
  intro fuel
  induction fuel with
  | zero => intro lc curr; exact CoalSteps.refl _
  | succ f ih =>
    intro lc curr
    cases hl : alookup ns curr with
    | none =>
      simp only [coalLoop, hl]
      exact CoalSteps.refl _
    | some n =>
      cases ho : n.offspring with
      | nil =>
        simp only [coalLoop, hl, ho]
        exact CoalSteps.refl _
      | cons c rest =>
        cases rest with
        | cons d rest' =>
          simp only [coalLoop, hl, ho]
          exact CoalSteps.refl _
        | nil =>
          by_cases hc : n.id = lc ∧ n.alive = false
          · cases hcl : alookup ns c with
            | none =>
              simp only [coalLoop, hl, ho, if_pos hc, hcl]
              exact CoalSteps.refl _
            | some cn =>
              simp only [coalLoop, hl, ho, if_pos hc, hcl]
              have hcn : cn.id = c := hid _ _ hcl
              have hcurr : lc = curr := by
                rw [← hc.1, hid _ _ hl]
              rw [← hcurr] at hl
              have hstep : CoalSteps ns cn.id (coalLoop f ns cn.id c) := ih cn.id c
              rw [hcn] at hstep
              rw [hcn]
              exact CoalSteps.step hl hc.2 ho hstep
          · simp only [coalLoop, hl, ho, if_neg hc]
            exact CoalSteps.refl _

/-! ### The compaction loop: unfolding equations and preservation -/

theorem compactLoop_stop {G : Type} [DecidableEq G] (f : Nat) (ns : List (Nat × Node G))
    (gs : List G) (cs : List (G × Int)) (curr : Nat) {cn : Node G}
    (hc : alookup ns curr = some cn) (hcond : ¬(cn.offspring = [] ∧ cn.alive = false)) :
    compactLoop (f + 1) ns gs cs curr = (ns, gs, cs, curr) := by
  simp only [compactLoop, hc]
  rw [if_neg hcond]

theorem compactLoop_none {G : Type} [DecidableEq G] (f : Nat) (ns : List (Nat × Node G))
    (gs : List G) (cs : List (G × Int)) (curr : Nat)
    (hc : alookup ns curr = none) :
    compactLoop (f + 1) ns gs cs curr = (ns, gs, cs, curr) := by
  simp only [compactLoop, hc]

theorem compactLoop_body {G : Type} [DecidableEq G] (f : Nat) (ns : List (Nat × Node G))
    (gs : List G) (cs : List (G × Int)) (curr : Nat) {cn p : Node G} {g : G}
    (hc : alookup ns curr = some cn) (hemp : cn.offspring = []) (hdead : cn.alive = false)
    (hp : alookup ns cn.parent = some p) (hg : cn.genome = some g) :
    compactLoop (f + 1) ns gs cs curr =
      compactLoop f
        (aerase (ainsert ns cn.parent
          { p with offspring := removeAll p.offspring curr }) curr)
        (if getCount cs g - 1 = 0 then eraseG gs g else gs)
        (setCount cs g (getCount cs g - 1)) cn.parent := by
  simp only [compactLoop, hc]
  rw [if_pos ⟨hemp, hdead⟩]
  simp only [hp, hg]

/-- The compaction loop restores the retention invariant and all structural
invariants, keeps genome counts exact and the genome store tight, never
touches an alive node, and stops at a node that fails the loop condition. -/
theorem compactLoop_post {G : Type} [DecidableEq G] (bound fresh : Nat) :
    ∀ (fuel : Nat) (ns : List (Nat × Node G)) (gs : List G) (cs : List (G × Int)) (curr : Nat),
      LoopPre ns gs cs bound fresh curr → ns.length < fuel →
      LoopPost ns (compactLoop fuel ns gs cs curr).1 (compactLoop fuel ns gs cs curr).2.1
        (compactLoop fuel ns gs cs curr).2.2.1 bound fresh
        (compactLoop fuel ns gs cs curr).2.2.2 := by
  intro fuel
  induction fuel with
  | zero =>
    intro ns gs cs curr _ hlen
    exact absurd hlen (by omega)
  | succ f ih =>
    intro ns gs cs curr pre hlen
    obtain ⟨cn, hc⟩ := pre.currMem
    by_cases hcond : cn.offspring = [] ∧ cn.alive = false
    · -- the loop body runs: detach, decrement, erase, ascend
      obtain ⟨hemp, hdead⟩ := hcond
      obtain ⟨n0, h0, h0p, h0id, h0al, h0g⟩ := pre.map.root
      obtain ⟨fn, hf, hfal⟩ := pre.freshAlive
      have hfresh0 : fresh ≠ 0 := by
        intro he
        rw [he, h0] at hf
        cases hf
        simp [h0al] at hfal
      have hrootoff : n0.offspring ≠ [] := by
        obtain ⟨n0', h0', hne⟩ := rooted_root_child (pre.aliveRooted _ _ hf hfal) hfresh0
        rw [h0] at h0'
        cases h0'
        exact hne
      have hcurr0 : curr ≠ 0 := by
        intro he
        rw [he, h0] at hc
        cases hc
        exact hrootoff hemp
      obtain ⟨p, hp⟩ := pre.map.parentMem _ _ hc
      have hPlt : cn.parent < curr := pre.map.parentLt _ _ hc hcurr0
      have hPne : cn.parent ≠ curr := Nat.ne_of_lt hPlt
      obtain ⟨g, hg⟩ := pre.map.genomeSome _ _ hc hcurr0
      rw [compactLoop_body f ns gs cs curr hc hemp hdead hp hg]
      have hnodupI : ((ainsert ns cn.parent
          { p with offspring := removeAll p.offspring curr }).map Prod.fst).Nodup :=
        nodup_ainsert _ pre.map.nodup
      have hl2c : alookup (aerase (ainsert ns cn.parent
          { p with offspring := removeAll p.offspring curr }) curr) curr = none :=
        alookup_aerase_self _ _ hnodupI
      have hl2 : ∀ j, j ≠ curr → alookup (aerase (ainsert ns cn.parent
          { p with offspring := removeAll p.offspring curr }) curr) j =
          if cn.parent = j then some { p with offspring := removeAll p.offspring curr }
          else alookup ns j := by
        intro j hj
        rw [alookup_aerase_ne _ _ _ (fun he => hj he.symm), alookup_ainsert]
      have hmem2 : ∀ {j : Nat} {n' : Node G}, alookup (aerase (ainsert ns cn.parent
          { p with offspring := removeAll p.offspring curr }) curr) j = some n' →
          j ≠ curr ∧
          ((cn.parent = j ∧ n' = { p with offspring := removeAll p.offspring curr })
            ∨ (cn.parent ≠ j ∧ alookup ns j = some n')) := by
        intro j n' hj
        have hjc : j ≠ curr := by
          intro he
          rw [he, hl2c] at hj
          cases hj
        refine ⟨hjc, ?_⟩
        rw [hl2 j hjc] at hj
        by_cases hPj : cn.parent = j
        · rw [if_pos hPj] at hj
          cases hj
          exact Or.inl ⟨hPj, rfl⟩
        · rw [if_neg hPj] at hj
          exact Or.inr ⟨hPj, hj⟩
      have hnoParent : ∀ (j : Nat) (n' : Node G), alookup (aerase (ainsert ns cn.parent
          { p with offspring := removeAll p.offspring curr }) curr) j = some n' →
          n'.parent ≠ curr := by
        intro j n' hj hpar
        obtain ⟨hjc, hcase⟩ := hmem2 hj
        rcases hcase with ⟨hPj, hn'⟩ | ⟨hPj, hn'⟩
        · subst hn'
          have hppar : p.parent = curr := hpar
          by_cases hj0 : j = 0
          · rw [hPj, hj0, h0] at hp
            have hpe : n0 = p := Option.some.inj hp
            rw [← hpe, h0p] at hppar
            exact hcurr0 hppar.symm
          · have hpj : alookup ns j = some p := by rw [← hPj]; exact hp
            have hmem := pre.map.childOff j p cn hpj hj0 (by rw [hppar]; exact hc)
            rw [hemp] at hmem
            exact absurd hmem (List.not_mem_nil _)
        · by_cases hj0 : j = 0
          · rw [hj0, h0] at hn'
            have hpe : n0 = n' := Option.some.inj hn'
            rw [← hpe, h0p] at hpar
            exact hcurr0 hpar.symm
          · have hmem := pre.map.childOff j n' cn hn' hj0 (by rw [hpar]; exact hc)
            rw [hemp] at hmem
            exact absurd hmem (List.not_mem_nil _)
      have hmap2 : MapInv (aerase (ainsert ns cn.parent
          { p with offspring := removeAll p.offspring curr }) curr) bound := by
        refine ⟨nodup_aerase hnodupI, ?_, ?_, ?_, ?_, ?_, ?_, ?_, ?_⟩
        · -- root
          by_cases hP0 : cn.parent = 0
          · have hpe : n0 = p := by
              rw [hP0, h0] at hp
              exact Option.some.inj hp
            refine ⟨{ p with offspring := removeAll p.offspring curr }, ?_, ?_, ?_, ?_, ?_⟩
            · rw [hl2 0 (fun he => hcurr0 he.symm), if_pos hP0]
            · show p.parent = 0
              rw [← hpe]
              exact h0p
            · show p.id = 0
              rw [← hpe]
              exact h0id
            · show p.alive = false
              rw [← hpe]
              exact h0al
            · show p.genome = none
              rw [← hpe]
              exact h0g
          · refine ⟨n0, ?_, h0p, h0id, h0al, h0g⟩
            rw [hl2 0 (fun he => hcurr0 he.symm), if_neg hP0]
            exact h0
        · -- idField
          intro i n hi
          obtain ⟨hic, hcase⟩ := hmem2 hi
          rcases hcase with ⟨hPj, hn⟩ | ⟨hPj, hn⟩
          · subst hn
            show p.id = i
            rw [← hPj]
            exact pre.map.idField _ _ hp
          · exact pre.map.idField _ _ hn
        · -- parentLt
          intro i n hi hi0
          obtain ⟨hic, hcase⟩ := hmem2 hi
          rcases hcase with ⟨hPj, hn⟩ | ⟨hPj, hn⟩
          · subst hn
            show p.parent < i
            rw [← hPj]
            exact pre.map.parentLt _ _ hp (by rw [hPj]; exact hi0)
          · exact pre.map.parentLt _ _ hn hi0
        · -- parentMem
          intro i n hi
          obtain ⟨hic, hcase⟩ := hmem2 hi
          have hnp : n.parent ≠ curr := hnoParent _ _ hi
          have hold : ∃ q, alookup ns n.parent = some q := by
            rcases hcase with ⟨hPj, hn⟩ | ⟨hPj, hn⟩
            · subst hn
              exact pre.map.parentMem cn.parent p hp
            · exact pre.map.parentMem _ _ hn
          obtain ⟨q, hq⟩ := hold
          rw [hl2 n.parent hnp]
          by_cases hPq : cn.parent = n.parent
          · rw [if_pos hPq]
            exact ⟨_, rfl⟩
          · rw [if_neg hPq]
            exact ⟨q, hq⟩
        · -- keysLt
          intro i n hi
          obtain ⟨hic, hcase⟩ := hmem2 hi
          rcases hcase with ⟨hPj, hn⟩ | ⟨hPj, hn⟩
          · rw [← hPj]
            exact pre.map.keysLt _ _ hp
          · exact pre.map.keysLt _ _ hn
        · -- genomeSome
          intro i n hi hi0
          obtain ⟨hic, hcase⟩ := hmem2 hi
          rcases hcase with ⟨hPj, hn⟩ | ⟨hPj, hn⟩
          · subst hn
            show ∃ g', p.genome = some g'
            exact pre.map.genomeSome _ _ hp (by rw [hPj]; exact hi0)
          · exact pre.map.genomeSome _ _ hn hi0
        · -- offChild
          intro i n c hi hcmem
          obtain ⟨hic, hcase⟩ := hmem2 hi
          rcases hcase with ⟨hPj, hn⟩ | ⟨hPj, hn⟩
          · subst hn
            have hcm : c ∈ removeAll p.offspring curr := hcmem
            rw [mem_removeAll] at hcm
            obtain ⟨hcold, hccurr⟩ := hcm
            obtain ⟨hc0, cx, hcx, hcxp⟩ := pre.map.offChild cn.parent p c hp hcold
            refine ⟨hc0, ?_⟩
            rw [hl2 c hccurr]
            by_cases hPc : cn.parent = c
            · rw [if_pos hPc]
              refine ⟨_, rfl, ?_⟩
              show p.parent = i
              rw [← hPj]
              have hce : cx = p := by
                rw [← hPc] at hcx
                rw [hp] at hcx
                exact (Option.some.inj hcx).symm
              rw [← hce]
              exact hcxp
            · rw [if_neg hPc]
              refine ⟨cx, hcx, ?_⟩
              rw [hcxp, hPj]
          · obtain ⟨hc0, cx, hcx, hcxp⟩ := pre.map.offChild i n c hn hcmem
            have hccurr : c ≠ curr := by
              intro he
              rw [he] at hcx
              rw [hc] at hcx
              have hce : cn = cx := Option.some.inj hcx
              rw [← hce] at hcxp
              exact hPj hcxp
            refine ⟨hc0, ?_⟩
            rw [hl2 c hccurr]
            by_cases hPc : cn.parent = c
            · rw [if_pos hPc]
              refine ⟨_, rfl, ?_⟩
              show p.parent = i
              have hce : cx = p := by
                rw [← hPc] at hcx
                rw [hp] at hcx
                exact (Option.some.inj hcx).symm
              rw [← hce]
              exact hcxp
            · rw [if_neg hPc]
              exact ⟨cx, hcx, hcxp⟩
        · -- childOff
          intro i n q hi hi0 hq
          obtain ⟨hic, hcase⟩ := hmem2 hi
          have hnp : n.parent ≠ curr := hnoParent _ _ hi
          rw [hl2 n.parent hnp] at hq
          rcases hcase with ⟨hPj, hn⟩ | ⟨hPj, hn⟩
          · subst hn
            have hpi : alookup ns i = some p := by rw [← hPj]; exact hp
            by_cases hPq : cn.parent = p.parent
            · rw [if_pos hPq] at hq
              cases hq
              have hco := pre.map.childOff i p p hpi hi0 (by rw [← hPq]; exact hp)
              show i ∈ removeAll p.offspring curr
              exact (mem_removeAll _ _ _).2 ⟨hco, hic⟩
            · rw [if_neg hPq] at hq
              exact pre.map.childOff i p q hpi hi0 hq
          · by_cases hPq : cn.parent = n.parent
            · rw [if_pos hPq] at hq
              cases hq
              have hqp : alookup ns n.parent = some p := by rw [← hPq]; exact hp
              have hco := pre.map.childOff i n p hn hi0 hqp
              show i ∈ removeAll p.offspring curr
              exact (mem_removeAll _ _ _).2 ⟨hco, hic⟩
            · rw [if_neg hPq] at hq
              exact pre.map.childOff i n q hn hi0 hq
      have hde2 : ∀ (i : Nat) (n : Node G), alookup (aerase (ainsert ns cn.parent
          { p with offspring := removeAll p.offspring curr }) curr) i = some n →
          n.alive = false → n.offspring = [] → i = 0 ∨ i = cn.parent := by
        intro i n hi hal hoff
        obtain ⟨hic, hcase⟩ := hmem2 hi
        rcases hcase with ⟨hPj, hn⟩ | ⟨hPj, hn⟩
        · exact Or.inr hPj.symm
        · rcases pre.deadEmptyExc i n hn hal hoff with h | h
          · exact Or.inl h
          · exact absurd h hic
      have har2 : ∀ (i : Nat) (n : Node G), alookup (aerase (ainsert ns cn.parent
          { p with offspring := removeAll p.offspring curr }) curr) i = some n →
          n.alive = true → Rooted (aerase (ainsert ns cn.parent
          { p with offspring := removeAll p.offspring curr }) curr) i := by
        intro i n hi hal
        obtain ⟨hic, hcase⟩ := hmem2 hi
        have hold : ∃ m : Node G, alookup ns i = some m ∧ m.alive = true := by
          rcases hcase with ⟨hPj, hn⟩ | ⟨hPj, hn⟩
          · refine ⟨p, by rw [← hPj]; exact hp, ?_⟩
            subst hn
            exact hal
          · exact ⟨n, hn, hal⟩
        obtain ⟨m, hm, hmal⟩ := hold
        exact rooted_compact_body hc hdead hemp hp
          (pre.aliveRooted _ _ hm hmal) ⟨m, hm, Or.inl hmal⟩
      have hrc2 : ∀ g' : G, refCount (aerase (ainsert ns cn.parent
          { p with offspring := removeAll p.offspring curr }) curr) g' +
          (if cn.genome = some g' then 1 else 0) = refCount ns g' := by
        intro g'
        have h1 : refCount (ainsert ns cn.parent
            { p with offspring := removeAll p.offspring curr }) g' = refCount ns g' :=
          refCount_ainsert_same_genome _ g' hp rfl
        have h2 : alookup (ainsert ns cn.parent
            { p with offspring := removeAll p.offspring curr }) curr = some cn := by
          rw [alookup_ainsert, if_neg hPne]
          exact hc
        have h3 := refCount_aerase g' h2
        rw [h1] at h3
        exact h3
      have hcnt2 : ∀ g' : G, getCount (setCount cs g (getCount cs g - 1)) g' =
          (refCount (aerase (ainsert ns cn.parent
            { p with offspring := removeAll p.offspring curr }) curr) g' : Int) := by
        intro g'
        rw [getCount_setCount]
        have h4 := hrc2 g'
        rw [hg] at h4
        by_cases hgg : g = g'
        · subst hgg
          rw [if_pos rfl]
          have he1 : (if (some g : Option G) = some g then 1 else 0) = 1 := by simp
          rw [he1] at h4
          have hc1 : getCount cs g = (refCount ns g : Int) := pre.counts g
          omega
        · rw [if_neg hgg]
          have he0 : (if (some g : Option G) = some g' then 1 else 0) = 0 := by
            simp [hgg]
          rw [he0] at h4
          have hc1 : getCount cs g' = (refCount ns g' : Int) := pre.counts g'
          omega
      have hgio2 : ∀ g' : G, g' ∈ (if getCount cs g - 1 = 0 then eraseG gs g else gs) ↔
          refCount (aerase (ainsert ns cn.parent
            { p with offspring := removeAll p.offspring curr }) curr) g' ≠ 0 := by
        intro g'
        have h4 := hrc2 g'
        rw [hg] at h4
        by_cases hgg : g = g'
        · subst hgg
          have he1 : (if (some g : Option G) = some g then 1 else 0) = 1 := by simp
          rw [he1] at h4
          have hc1 : getCount cs g = (refCount ns g : Int) := pre.counts g
          by_cases hz : getCount cs g - 1 = 0
          · rw [if_pos hz, mem_eraseG]
            constructor
            · rintro ⟨_, hne⟩
              exact absurd rfl hne
            · intro hne
              exact absurd (by omega : refCount (aerase (ainsert ns cn.parent
                { p with offspring := removeAll p.offspring curr }) curr) g = 0) hne
          · rw [if_neg hz]
            rw [pre.genomesIff g]
            constructor
            · intro hh
              omega
            · intro hh
              omega
        · have he0 : (if (some g : Option G) = some g' then 1 else 0) = 0 := by
            simp [hgg]
          rw [he0] at h4
          by_cases hz : getCount cs g - 1 = 0
          · rw [if_pos hz, mem_eraseG, pre.genomesIff g']
            constructor
            · rintro ⟨hh, _⟩
              omega
            · intro hh
              exact ⟨by omega, fun he => hgg he.symm⟩
          · rw [if_neg hz, pre.genomesIff g']
            constructor
            · intro hh
              omega
            · intro hh
              omega
      have hfa2 : ∃ fn' : Node G, alookup (aerase (ainsert ns cn.parent
          { p with offspring := removeAll p.offspring curr }) curr) fresh = some fn' ∧
          fn'.alive = true := by
        have hfc : fresh ≠ curr := by
          intro he
          rw [he] at hf
          rw [hc] at hf
          have hfe : cn = fn := Option.some.inj hf
          rw [← hfe, hdead] at hfal
          exact Bool.noConfusion hfal
        rw [hl2 fresh hfc]
        by_cases hPf : cn.parent = fresh
        · rw [if_pos hPf]
          refine ⟨_, rfl, ?_⟩
          show p.alive = true
          have hpf : fn = p := by
            rw [hPf] at hp
            rw [hf] at hp
            exact Option.some.inj hp
          rw [← hpf]
          exact hfal
        · rw [if_neg hPf]
          exact ⟨fn, hf, hfal⟩
      have hcm2 : ∃ q : Node G, alookup (aerase (ainsert ns cn.parent
          { p with offspring := removeAll p.offspring curr }) curr) cn.parent = some q := by
        rw [hl2 cn.parent hPne, if_pos rfl]
        exact ⟨_, rfl⟩
      have hlen2 : (aerase (ainsert ns cn.parent
          { p with offspring := removeAll p.offspring curr }) curr).length < f := by
        have hPmem : cn.parent ∈ ns.map Prod.fst := mem_fst_of_alookup hp
        have e1 : (ainsert ns cn.parent
            { p with offspring := removeAll p.offspring curr }).length = ns.length :=
          length_ainsert_mem _ hPmem
        have hcmem : curr ∈ (ainsert ns cn.parent
            { p with offspring := removeAll p.offspring curr }).map Prod.fst := by
          apply mem_fst_of_alookup (a := cn)
          rw [alookup_ainsert, if_neg hPne]
          exact hc
        have e2 := length_aerase_mem hcmem
        omega
      have hap1 : ∀ (i : Nat) (n : Node G), alookup ns i = some n → n.alive = true →
          ∃ n' : Node G, alookup (aerase (ainsert ns cn.parent
            { p with offspring := removeAll p.offspring curr }) curr) i = some n' ∧
            n'.alive = true := by
        intro i n hi hal
        have hic : i ≠ curr := by
          intro he
          rw [he] at hi
          rw [hc] at hi
          have hie : cn = n := Option.some.inj hi
          rw [← hie, hdead] at hal
          exact Bool.noConfusion hal
        rw [hl2 i hic]
        by_cases hPi : cn.parent = i
        · rw [if_pos hPi]
          refine ⟨_, rfl, ?_⟩
          show p.alive = true
          have hpn : n = p := by
            rw [hPi] at hp
            rw [hi] at hp
            exact Option.some.inj hp
          rw [← hpn]
          exact hal
        · rw [if_neg hPi]
          exact ⟨n, hi, hal⟩
      have pre2 : LoopPre (aerase (ainsert ns cn.parent
          { p with offspring := removeAll p.offspring curr }) curr)
          (if getCount cs g - 1 = 0 then eraseG gs g else gs)
          (setCount cs g (getCount cs g - 1)) bound fresh cn.parent :=
        ⟨hmap2, hde2, har2, hcnt2, hgio2, hfa2, hcm2⟩
      have post2 := ih _ _ _ cn.parent pre2 hlen2
      refine ⟨post2.map, post2.deadEmpty, post2.aliveRooted, post2.counts, post2.genomesIff,
        post2.freshAlive, post2.stopMem, ?_⟩
      intro i n hi hal
      obtain ⟨n', hi', hal'⟩ := hap1 i n hi hal
      exact post2.alivePreserved i n' hi' hal'
    · -- the loop stops at `curr`
      rw [compactLoop_stop f ns gs cs curr hc hcond]
      refine ⟨pre.map, ?_, pre.aliveRooted, pre.counts, pre.genomesIff, pre.freshAlive, ?_, ?_⟩
      · intro i n hi hal hoff
        rcases pre.deadEmptyExc i n hi hal hoff with h | h
        · exact h
        · subst h
          rw [hc] at hi
          have hie : cn = n := Option.some.inj hi
          rw [← hie] at hal hoff
          exact absurd ⟨hoff, hal⟩ hcond
      · refine ⟨cn, hc, ?_⟩
        by_cases ha : cn.alive = true
        · exact Or.inl ha
        · refine Or.inr fun he => hcond ⟨he, ?_⟩
          revert ha
          cases cn.alive
          · intro _
            rfl
          · intro ha
            exact absurd rfl ha
      · intro i n hi hal
        exact ⟨n, hi, hal⟩

/-! ### `AddOrganism`: unfolding equations and invariant preservation -/

theorem AddOrganism_snd {G : Type} [DecidableEq G] (s : PrunedState G) (org : G)
    (parent : Nat) : (AddOrganism s org parent).2 = s.next := rfl

theorem AddOrganism_next {G : Type} [DecidableEq G] (s : PrunedState G) (org : G)
    (parent : Nat) : (AddOrganism s org parent).1.next = s.next + 1 := rfl

theorem AddOrganism_gen {G : Type} [DecidableEq G] (s : PrunedState G) (org : G)
    (parent : Nat) :
    (AddOrganism s org parent).1.generation_since_update = s.generation_since_update := rfl

theorem AddOrganism_lc {G : Type} [DecidableEq G] (s : PrunedState G) (org : G)
    (parent : Nat) : (AddOrganism s org parent).1.last_coalesence = s.last_coalesence := rfl

theorem AddOrganism_nodes {G : Type} [DecidableEq G] (s : PrunedState G) (org : G)
    (parent : Nat) {pn : Node G}
    (hpar : alookup (ainsert s.nodes s.next ⟨parent, s.next, true, some org, []⟩) parent =
      some pn) :
    (AddOrganism s org parent).1.nodes =
      ainsert (ainsert s.nodes s.next ⟨parent, s.next, true, some org, []⟩) parent
        { pn with offspring := pn.offspring ++ [s.next] } := by
  simp only [AddOrganism, hpar]

theorem AddOrganism_genomes_mem {G : Type} [DecidableEq G] (s : PrunedState G) {org : G}
    (parent : Nat) (h : org ∈ s.genomes) :
    (AddOrganism s org parent).1.genomes = s.genomes := by
  simp [AddOrganism, h]

theorem AddOrganism_counts_mem {G : Type} [DecidableEq G] (s : PrunedState G) {org : G}
    (parent : Nat) (h : org ∈ s.genomes) :
    (AddOrganism s org parent).1.genome_counts =
      setCount s.genome_counts org (getCount s.genome_counts org + 1) := by
  simp [AddOrganism, h]

theorem AddOrganism_genomes_not_mem {G : Type} [DecidableEq G] (s : PrunedState G) {org : G}
    (parent : Nat) (h : org ∉ s.genomes) :
    (AddOrganism s org parent).1.genomes = s.genomes ++ [org] := by
  simp [AddOrganism, h]

theorem AddOrganism_counts_not_mem {G : Type} [DecidableEq G] (s : PrunedState G) {org : G}
    (parent : Nat) (h : org ∉ s.genomes) :
    (AddOrganism s org parent).1.genome_counts = setCount s.genome_counts org 1 := by
  simp [AddOrganism, h]

/-- `AddOrganism` preserves the tracker invariant when called with a parent
that is present and either the root sentinel or alive (which is how every
event calls it), and the fresh node is alive with the expected fields. -/
theorem addOrganism_inv {G : Type} [DecidableEq G] {s : PrunedState G} (hInv : Inv s)
    (org : G) {parent : Nat} {pn : Node G} (hpar : alookup s.nodes parent = some pn)
    (hpalive : parent = 0 ∨ pn.alive = true) :
    Inv (AddOrganism s org parent).1 ∧
    alookup (AddOrganism s org parent).1.nodes s.next =
      some ⟨parent, s.next, true, some org, []⟩ ∧
    (∀ (i : Nat) (n : Node G), alookup s.nodes i = some n → i ≠ parent →
      alookup (AddOrganism s org parent).1.nodes i = some n) ∧
    alookup (AddOrganism s org parent).1.nodes parent =
      some { pn with offspring := pn.offspring ++ [s.next] } := by
  have hzeroMem : ∃ n0 : Node G, alookup s.nodes 0 = some n0 := by
    obtain ⟨n0, h0, _⟩ := hInv.map.root
    exact ⟨n0, h0⟩
  obtain ⟨n0, h0, h0p, h0id, h0al, h0g⟩ := hInv.map.root
  have hnextpos : 0 < s.next := hInv.map.keysLt _ _ h0
  have hfreshNone : alookup s.nodes s.next = none := by
    cases he : alookup s.nodes s.next with
    | none => rfl
    | some m => exact absurd (hInv.map.keysLt _ _ he) (by omega)
  have hparlt : parent < s.next := hInv.map.keysLt _ _ hpar
  have hparne : s.next ≠ parent := by omega
  have hpar1 : alookup (ainsert s.nodes s.next ⟨parent, s.next, true, some org, []⟩)
      parent = some pn := by
    rw [alookup_ainsert, if_neg hparne]
    exact hpar
  have hns := AddOrganism_nodes s org parent hpar1
  -- full lookup characterisation of the new node map
  have hlk : ∀ j, alookup (AddOrganism s org parent).1.nodes j =
      if parent = j then some { pn with offspring := pn.offspring ++ [s.next] }
      else if s.next = j then some ⟨parent, s.next, true, some org, []⟩
      else alookup s.nodes j := by
    intro j
    rw [hns, alookup_ainsert, alookup_ainsert]
  have hlkfresh : alookup (AddOrganism s org parent).1.nodes s.next =
      some ⟨parent, s.next, true, some org, []⟩ := by
    rw [hlk, if_neg (fun he => hparne he.symm), if_pos rfl]
  have hlkpar : alookup (AddOrganism s org parent).1.nodes parent =
      some { pn with offspring := pn.offspring ++ [s.next] } := by
    rw [hlk, if_pos rfl]
  have hlkold : ∀ (i : Nat) (n : Node G), alookup s.nodes i = some n → i ≠ parent →
      alookup (AddOrganism s org parent).1.nodes i = some n := by
    intro i n hi hip
    have hii : s.next ≠ i := by
      intro he
      rw [← he, hfreshNone] at hi
      cases hi
    rw [hlk, if_neg (fun he => hip he.symm), if_neg hii]
    exact hi
  -- inverse characterisation
  have hmemInv : ∀ {j : Nat} {n : Node G},
      alookup (AddOrganism s org parent).1.nodes j = some n →
      (parent = j ∧ n = { pn with offspring := pn.offspring ++ [s.next] }) ∨
      (s.next = j ∧ n = ⟨parent, s.next, true, some org, []⟩) ∨
      (j ≠ parent ∧ j ≠ s.next ∧ alookup s.nodes j = some n) := by
    intro j n hj
    rw [hlk] at hj
    by_cases hpj : parent = j
    · rw [if_pos hpj] at hj
      cases hj
      exact Or.inl ⟨hpj, rfl⟩
    · rw [if_neg hpj] at hj
      by_cases hfj : s.next = j
      · rw [if_pos hfj] at hj
        cases hj
        exact Or.inr (Or.inl ⟨hfj, rfl⟩)
      · rw [if_neg hfj] at hj
        exact Or.inr (Or.inr ⟨fun he => hpj he.symm, fun he => hfj he.symm, hj⟩)
  -- mapping old nodes into the new map for `rooted_of_map_le`
  have hmono : ∀ (j : Nat) (m : Node G), alookup s.nodes j = some m →
      ∃ m', alookup (AddOrganism s org parent).1.nodes j = some m' ∧
        m'.parent = m.parent ∧ ∀ x ∈ m.offspring, x ∈ m'.offspring := by
    intro j m hj
    by_cases hjp : j = parent
    · subst hjp
      rw [hpar] at hj
      cases hj
      refine ⟨_, hlkpar, rfl, ?_⟩
      intro x hx
      exact List.mem_append_left _ hx
    · exact ⟨m, hlkold j m hj hjp, rfl, fun x hx => hx⟩
  have hInv2 : Inv (AddOrganism s org parent).1 := by
    refine ⟨⟨?_, ?_, ?_, ?_, ?_, ?_, ?_, ?_, ?_⟩, ?_, ?_, ?_, ?_, ?_, ?_, ?_⟩
    · -- nodup
      rw [hns]
      exact nodup_ainsert _ (nodup_ainsert _ hInv.map.nodup)
    · -- root
      by_cases hp0 : parent = 0
      · refine ⟨{ pn with offspring := pn.offspring ++ [s.next] }, ?_, ?_, ?_, ?_, ?_⟩
        · rw [← hp0]
          exact hlkpar
        · show pn.parent = 0
          have : n0 = pn := by
            rw [hp0, h0] at hpar
            exact Option.some.inj hpar
          rw [← this]
          exact h0p
        · show pn.id = 0
          have : n0 = pn := by
            rw [hp0, h0] at hpar
            exact Option.some.inj hpar
          rw [← this]
          exact h0id
        · show pn.alive = false
          have : n0 = pn := by
            rw [hp0, h0] at hpar
            exact Option.some.inj hpar
          rw [← this]
          exact h0al
        · show pn.genome = none
          have : n0 = pn := by
            rw [hp0, h0] at hpar
            exact Option.some.inj hpar
          rw [← this]
          exact h0g
      · refine ⟨n0, ?_, h0p, h0id, h0al, h0g⟩
        exact hlkold 0 n0 h0 (fun he => hp0 he.symm)
    · -- idField
      intro i n hi
      rcases hmemInv hi with ⟨hj, hn⟩ | ⟨hj, hn⟩ | ⟨_, _, hn⟩
      · subst hj
        subst hn
        show pn.id = parent
        exact hInv.map.idField _ _ hpar
      · subst hj
        subst hn
        rfl
      · exact hInv.map.idField _ _ hn
    · -- parentLt
      intro i n hi hi0
      rcases hmemInv hi with ⟨hj, hn⟩ | ⟨hj, hn⟩ | ⟨_, _, hn⟩
      · subst hj
        subst hn
        show pn.parent < parent
        exact hInv.map.parentLt _ _ hpar hi0
      · subst hj
        subst hn
        show parent < s.next
        exact hparlt
      · exact hInv.map.parentLt _ _ hn hi0
    · -- parentMem
      intro i n hi
      rcases hmemInv hi with ⟨hj, hn⟩ | ⟨hj, hn⟩ | ⟨_, _, hn⟩
      · subst hj
        subst hn
        obtain ⟨q, hq⟩ := hInv.map.parentMem parent pn hpar
        obtain ⟨q', hq', _⟩ := hmono _ _ hq
        exact ⟨q', hq'⟩
      · subst hj
        subst hn
        exact ⟨_, hlkpar⟩
      · obtain ⟨q, hq⟩ := hInv.map.parentMem _ _ hn
        obtain ⟨q', hq', _⟩ := hmono _ _ hq
        exact ⟨q', hq'⟩
    · -- keysLt
      intro i n hi
      rcases hmemInv hi with ⟨hj, _⟩ | ⟨hj, _⟩ | ⟨_, _, hn⟩
      · subst hj
        show parent < s.next + 1
        omega
      · subst hj
        show s.next < s.next + 1
        omega
      · have := hInv.map.keysLt _ _ hn
        show i < s.next + 1
        omega
    · -- genomeSome
      intro i n hi hi0
      rcases hmemInv hi with ⟨hj, hn⟩ | ⟨hj, hn⟩ | ⟨_, _, hn⟩
      · subst hj
        subst hn
        show ∃ g, pn.genome = some g
        exact hInv.map.genomeSome _ _ hpar hi0
      · subst hj
        subst hn
        exact ⟨org, rfl⟩
      · exact hInv.map.genomeSome _ _ hn hi0
    · -- offChild
      intro i n c hi hcm
      rcases hmemInv hi with ⟨hj, hn⟩ | ⟨hj, hn⟩ | ⟨hip, hif, hn⟩
      · subst hj
        subst hn
        have hcm' : c ∈ pn.offspring ++ [s.next] := hcm
        rw [List.mem_append] at hcm'
        rcases hcm' with hcm' | hcm'
        · obtain ⟨hc0, cx, hcx, hcxp⟩ := hInv.map.offChild parent pn c hpar hcm'
          refine ⟨hc0, ?_⟩
          by_cases hcp : c = parent
          · subst hcp
            refine ⟨_, hlkpar, ?_⟩
            show pn.parent = c
            rw [hpar] at hcx
            have : pn = cx := Option.some.inj hcx
            rw [this]
            exact hcxp
          · exact ⟨cx, hlkold c cx hcx hcp, hcxp⟩
        · rw [List.mem_singleton] at hcm'
          subst hcm'
          refine ⟨by omega, ⟨parent, s.next, true, some org, []⟩, hlkfresh, rfl⟩
      · subst hj
        subst hn
        exact absurd hcm (List.not_mem_nil c)
      · obtain ⟨hc0, cx, hcx, hcxp⟩ := hInv.map.offChild i n c hn hcm
        refine ⟨hc0, ?_⟩
        by_cases hcp : c = parent
        · subst hcp
          refine ⟨_, hlkpar, ?_⟩
          show pn.parent = i
          rw [hpar] at hcx
          have : pn = cx := Option.some.inj hcx
          rw [this]
          exact hcxp
        · exact ⟨cx, hlkold c cx hcx hcp, hcxp⟩
    · -- childOff
      intro i n q hi hi0 hq
      rcases hmemInv hi with ⟨hj, hn⟩ | ⟨hj, hn⟩ | ⟨hip, hif, hn⟩
      · subst hj
        subst hn
        -- node at `parent`, its parent field is pn.parent
        have hpp : ∃ q0, alookup s.nodes pn.parent = some q0 :=
          hInv.map.parentMem parent pn hpar
        obtain ⟨q0, hq0⟩ := hpp
        have hold := hInv.map.childOff parent pn q0 hpar hi0 hq0
        by_cases hqp : pn.parent = parent
        · -- parent's parent is itself: q is the updated parent node
          rw [hqp] at hq0
          rw [hpar] at hq0
          have hq0e : pn = q0 := Option.some.inj hq0
          have hqe : q = { pn with offspring := pn.offspring ++ [s.next] } := by
            have := hq
            rw [show ({ pn with offspring := pn.offspring ++ [s.next] } : Node G).parent =
              pn.parent from rfl, hqp, hlkpar] at this
            exact (Option.some.inj this).symm
          subst hqe
          show parent ∈ pn.offspring ++ [s.next]
          apply List.mem_append_left
          rw [← hq0e] at hold
          exact hold
        · have hqpc : alookup (AddOrganism s org parent).1.nodes pn.parent = some q0 := by
            apply hlkold _ _ hq0 hqp
          have hqe : q = q0 := by
            rw [show ({ pn with offspring := pn.offspring ++ [s.next] } : Node G).parent =
              pn.parent from rfl] at hq
            rw [hqpc] at hq
            exact (Option.some.inj hq).symm
          subst hqe
          exact hold
      · subst hj
        subst hn
        -- the fresh node: parent field is `parent`, and q is the updated parent node
        have hqe : q = { pn with offspring := pn.offspring ++ [s.next] } := by
          have := hq
          rw [show (⟨parent, s.next, true, some org, []⟩ : Node G).parent = parent from rfl,
            hlkpar] at this
          exact (Option.some.inj this).symm
        subst hqe
        show s.next ∈ pn.offspring ++ [s.next]
        apply List.mem_append_right
        exact List.mem_singleton.2 rfl
      · -- an old node
        obtain ⟨q0, hq0⟩ := hInv.map.parentMem i n hn
        have hold := hInv.map.childOff i n q0 hn hi0 hq0
        by_cases hqp : n.parent = parent
        · have hqe : q = { pn with offspring := pn.offspring ++ [s.next] } := by
            rw [hqp, hlkpar] at hq
            exact (Option.some.inj hq).symm
          subst hqe
          show i ∈ pn.offspring ++ [s.next]
          apply List.mem_append_left
          rw [hqp] at hq0
          rw [hpar] at hq0
          have : pn = q0 := Option.some.inj hq0
          rw [this]
          exact hold
        · have hqpc : alookup (AddOrganism s org parent).1.nodes n.parent = some q0 :=
            hlkold _ _ hq0 hqp
          rw [hqpc] at hq
          have : q0 = q := Option.some.inj hq
          rw [← this]
          exact hold
    · -- deadEmpty
      intro i n hi hal hoff
      rcases hmemInv hi with ⟨hj, hn⟩ | ⟨hj, hn⟩ | ⟨_, _, hn⟩
      · subst hn
        have : pn.offspring ++ [s.next] = [] := hoff
        exact absurd this (by simp)
      · subst hn
        exact absurd hal (by simp)
      · exact hInv.deadEmpty i n hn hal hoff
    · -- aliveRooted
      intro i n hi hal
      rcases hmemInv hi with ⟨hj, hn⟩ | ⟨hj, hn⟩ | ⟨hip, hif, hn⟩
      · subst hj
        subst hn
        have hpal : pn.alive = true := hal
        exact rooted_of_map_le hmono (hInv.aliveRooted parent pn hpar hpal)
      · subst hj
        subst hn
        -- the fresh node is rooted through its parent
        have hrp : Rooted (AddOrganism s org parent).1.nodes parent := by
          rcases hpalive with hp0 | hpal
          · rw [hp0]
            exact Rooted.zero
          · exact rooted_of_map_le hmono (hInv.aliveRooted parent pn hpar hpal)
        have h3' : alookup (AddOrganism s org parent).1.nodes
            (⟨parent, s.next, true, some org, []⟩ : Node G).parent =
            some { pn with offspring := pn.offspring ++ [s.next] } := hlkpar
        have h4' : s.next ∈
            ({ pn with offspring := pn.offspring ++ [s.next] } : Node G).offspring :=
          List.mem_append_right _ (List.mem_singleton.2 rfl)
        have h5' : Rooted (AddOrganism s org parent).1.nodes
            (⟨parent, s.next, true, some org, []⟩ : Node G).parent := hrp
        exact Rooted.succ hlkfresh (by omega) h3' h4' h5'
      · exact rooted_of_map_le hmono (hInv.aliveRooted i n hn hal)
    · -- counts
      intro g'
      have hrc : refCount (AddOrganism s org parent).1.nodes g' =
          refCount s.nodes g' + (if org = g' then 1 else 0) := by
        rw [hns]
        have h1 : refCount (ainsert s.nodes s.next ⟨parent, s.next, true, some org, []⟩) g' =
            refCount s.nodes g' +
              (if (⟨parent, s.next, true, some org, []⟩ : Node G).genome = some g'
                then 1 else 0) :=
          refCount_ainsert_not_mem _ g' (by rw [← alookup_eq_none]; exact hfreshNone)
        have h2 : refCount (ainsert (ainsert s.nodes s.next
            ⟨parent, s.next, true, some org, []⟩) parent
            { pn with offspring := pn.offspring ++ [s.next] }) g' =
            refCount (ainsert s.nodes s.next ⟨parent, s.next, true, some org, []⟩) g' :=
          refCount_ainsert_same_genome _ g' hpar1 rfl
        rw [h2, h1]
        congr 1
        show (if (some org : Option G) = some g' then 1 else 0) = if org = g' then 1 else 0
        by_cases h : org = g'
        · subst h
          simp
        · simp [h]
      by_cases hm : org ∈ s.genomes
      · have hcs := AddOrganism_counts_mem s parent hm
        rw [hcs, hrc, getCount_setCount]
        by_cases h : org = g'
        · subst h
          rw [if_pos rfl, if_pos rfl, hInv.counts org]
          push_cast
          omega
        · rw [if_neg h, if_neg h, hInv.counts g']
          omega
      · have hcs := AddOrganism_counts_not_mem s parent hm
        rw [hcs, hrc, getCount_setCount]
        by_cases h : org = g'
        · subst h
          rw [if_pos rfl, if_pos rfl]
          have : refCount s.nodes org = 0 := by
            by_contra hne
            exact hm ((hInv.genomesIff org).2 hne)
          rw [this]
          rfl
        · rw [if_neg h, if_neg h, hInv.counts g']
          omega
    · -- genomesIff
      intro g'
      have hrc : refCount (AddOrganism s org parent).1.nodes g' =
          refCount s.nodes g' + (if org = g' then 1 else 0) := by
        rw [hns]
        have h1 : refCount (ainsert s.nodes s.next ⟨parent, s.next, true, some org, []⟩) g' =
            refCount s.nodes g' +
              (if (⟨parent, s.next, true, some org, []⟩ : Node G).genome = some g'
                then 1 else 0) :=
          refCount_ainsert_not_mem _ g' (by rw [← alookup_eq_none]; exact hfreshNone)
        have h2 : refCount (ainsert (ainsert s.nodes s.next
            ⟨parent, s.next, true, some org, []⟩) parent
            { pn with offspring := pn.offspring ++ [s.next] }) g' =
            refCount (ainsert s.nodes s.next ⟨parent, s.next, true, some org, []⟩) g' :=
          refCount_ainsert_same_genome _ g' hpar1 rfl
        rw [h2, h1]
        congr 1
        show (if (some org : Option G) = some g' then 1 else 0) = if org = g' then 1 else 0
        by_cases h : org = g'
        · subst h
          simp
        · simp [h]
      by_cases hm : org ∈ s.genomes
      · have hgs := AddOrganism_genomes_mem s parent hm
        rw [hgs, hrc]
        by_cases h : org = g'
        · subst h
          rw [if_pos rfl]
          constructor
          · intro _
            omega
          · intro _
            exact hm
        · rw [if_neg h]
          rw [hInv.genomesIff g']
          omega

      · have hgs := AddOrganism_genomes_not_mem s parent hm
        rw [hgs, hrc]
        rw [List.mem_append]
        by_cases h : org = g'
        · subst h
          rw [if_pos rfl]
          constructor
          · intro _
            omega
          · intro _
            exact Or.inr (List.mem_singleton.2 rfl)
        · rw [if_neg h]
          constructor
          · rintro (hh | hh)
            · have := (hInv.genomesIff g').1 hh
              omega
            · rw [List.mem_singleton] at hh
              exact absurd hh.symm h
          · intro hh
            refine Or.inl ((hInv.genomesIff g').2 ?_)
            omega
    · -- genAlive
      intro k hk
      rw [AddOrganism_gen] at hk ⊢
      rcases hInv.genAlive k hk with h | ⟨n, hn, hal⟩
      · exact Or.inl h
      · refine Or.inr ?_
        obtain ⟨n', hn', hp', _⟩ := hmono _ _ hn
        refine ⟨n', hn', ?_⟩
        rcases hmemInv hn' with ⟨hj, hne⟩ | ⟨hj, hne⟩ | ⟨_, _, hne⟩
        · subst hne
          show pn.alive = true
          have : alookup s.nodes (s.generation_since_update.getD k 0) = some n := hn
          rw [← hj] at this
          rw [hpar] at this
          have he : pn = n := Option.some.inj this
          rw [he]
          exact hal
        · subst hne
          rfl
        · rw [hn] at hne
          have he : n = n' := Option.some.inj hne
          rw [← he]
          exact hal
    · -- genLt
      intro k hk
      rw [AddOrganism_gen] at hk ⊢
      rw [AddOrganism_next]
      have := hInv.genLt k hk
      omega
    · -- genDistinct
      intro k l hk hl hkl
      rw [AddOrganism_gen] at hk hl ⊢
      exact hInv.genDistinct k l hk hl hkl
  exact ⟨hInv2, hlkfresh, hlkold, hlkpar⟩

/-! ### `TrackPlacement`: unfolding and invariant preservation -/

theorem genResize_getD (l : List Nat) (pos k : Nat) :
    (genResize l pos).getD k 0 = if k < l.length then l.getD k 0 else 0 := by
  unfold genResize
  by_cases h : l.length ≤ pos
  · rw [if_pos h, getD_pad]
  · rw [if_neg h]
    by_cases hk : k < l.length
    · rw [if_pos hk]
    · rw [if_neg hk, getD_lt_length _ _ (not_lt.1 hk)]

theorem genResize_pos_lt (l : List Nat) (pos : Nat) : pos < (genResize l pos).length := by
  unfold genResize
  by_cases h : l.length ≤ pos
  · rw [if_pos h]
    simp
    omega
  · rw [if_neg h]
    omega

theorem genResize_of_pos_lt (l : List Nat) (pos : Nat) (h : pos < l.length) :
    genResize l pos = l := by
  unfold genResize
  rw [if_neg (by omega)]

/-- Marking one present node dead preserves the structural map invariant
(only the `alive` flag changes). -/
theorem mapInv_mark_dead {G : Type} {ns : List (Nat × Node G)} {bound cid : Nat}
    {cn : Node G} (hm : MapInv ns bound) (hc : alookup ns cid = some cn) :
    MapInv (ainsert ns cid { cn with alive := false }) bound := by
  have hlkN : ∀ j, alookup (ainsert ns cid { cn with alive := false }) j =
      if cid = j then some { cn with alive := false } else alookup ns j := fun j =>
    alookup_ainsert ns cid _ j
  have hmemN : ∀ {j : Nat} {n : Node G},
      alookup (ainsert ns cid { cn with alive := false }) j = some n →
      (cid = j ∧ n = { cn with alive := false }) ∨ (cid ≠ j ∧ alookup ns j = some n) := by
    intro j n hj
    rw [hlkN] at hj
    by_cases h : cid = j
    · rw [if_pos h] at hj
      cases hj
      exact Or.inl ⟨h, rfl⟩
    · rw [if_neg h] at hj
      exact Or.inr ⟨h, hj⟩
  refine ⟨?_, ?_, ?_, ?_, ?_, ?_, ?_, ?_, ?_⟩
  · exact nodup_ainsert _ hm.nodup
  · obtain ⟨n0, h0, h0p, h0id, h0al, h0g⟩ := hm.root
    by_cases h : cid = 0
    · have he : n0 = cn := by
        rw [h, h0] at hc
        exact Option.some.inj hc
      refine ⟨{ cn with alive := false }, ?_, ?_, ?_, rfl, ?_⟩
      · rw [hlkN, if_pos h]
      · show cn.parent = 0
        rw [← he]
        exact h0p
      · show cn.id = 0
        rw [← he]
        exact h0id
      · show cn.genome = none
        rw [← he]
        exact h0g
    · refine ⟨n0, ?_, h0p, h0id, h0al, h0g⟩
      rw [hlkN, if_neg h]
      exact h0
  · intro i n hi
    rcases hmemN hi with ⟨hj, hn⟩ | ⟨hj, hn⟩
    · subst hj
      subst hn
      show cn.id = cid
      exact hm.idField _ _ hc
    · exact hm.idField _ _ hn
  · intro i n hi hi0
    rcases hmemN hi with ⟨hj, hn⟩ | ⟨hj, hn⟩
    · subst hj
      subst hn
      show cn.parent < cid
      exact hm.parentLt _ _ hc hi0
    · exact hm.parentLt _ _ hn hi0
  · intro i n hi
    have hold : ∃ q, alookup ns n.parent = some q := by
      rcases hmemN hi with ⟨hj, hn⟩ | ⟨hj, hn⟩
      · subst hn
        exact hm.parentMem cid cn hc
      · exact hm.parentMem _ _ hn
    obtain ⟨q, hq⟩ := hold
    rw [hlkN]
    by_cases h : cid = n.parent
    · rw [if_pos h]
      exact ⟨_, rfl⟩
    · rw [if_neg h]
      exact ⟨q, hq⟩
  · intro i n hi
    rcases hmemN hi with ⟨hj, hn⟩ | ⟨hj, hn⟩
    · subst hj
      exact hm.keysLt _ _ hc
    · exact hm.keysLt _ _ hn
  · intro i n hi hi0
    rcases hmemN hi with ⟨hj, hn⟩ | ⟨hj, hn⟩
    · subst hj
      subst hn
      show ∃ g, cn.genome = some g
      exact hm.genomeSome _ _ hc hi0
    · exact hm.genomeSome _ _ hn hi0
  · intro i n c hi hcm
    have hbase : ∃ m : Node G, alookup ns i = some m ∧ c ∈ m.offspring := by
      rcases hmemN hi with ⟨hj, hn⟩ | ⟨hj, hn⟩
      · subst hj
        subst hn
        exact ⟨cn, hc, hcm⟩
      · exact ⟨n, hn, hcm⟩
    obtain ⟨m, hmi, hcm'⟩ := hbase
    obtain ⟨hc0, cx, hcx, hcxp⟩ := hm.offChild i m c hmi hcm'
    refine ⟨hc0, ?_⟩
    rw [hlkN]
    by_cases h : cid = c
    · rw [if_pos h]
      refine ⟨_, rfl, ?_⟩
      show cn.parent = i
      have he : cx = cn := by
        rw [← h] at hcx
        rw [hc] at hcx
        exact (Option.some.inj hcx).symm
      rw [← he]
      exact hcxp
    · rw [if_neg h]
      exact ⟨cx, hcx, hcxp⟩
  · intro i n q hi hi0 hq
    rw [hlkN] at hq
    have hbase : ∃ m : Node G, alookup ns i = some m ∧ m.parent = n.parent := by
      rcases hmemN hi with ⟨hj, hn⟩ | ⟨hj, hn⟩
      · subst hj
        subst hn
        exact ⟨cn, hc, rfl⟩
      · exact ⟨n, hn, rfl⟩
    obtain ⟨m, hmi, hmp⟩ := hbase
    by_cases h : cid = n.parent
    · rw [if_pos h] at hq
      cases hq
      have hqc : alookup ns m.parent = some cn := by
        rw [hmp, ← h]
        exact hc
      have := hm.childOff i m cn hmi hi0 hqc
      exact this
    · rw [if_neg h] at hq
      have hqc : alookup ns m.parent = some q := by
        rw [hmp]
        exact hq
      exact hm.childOff i m q hmi hi0 hqc

theorem TP_nodes {G : Type} [DecidableEq G] (t : PrunedState G) (pos cid : Nat)
    {cn : Node G} (hgc : (genResize t.generation_since_update pos).getD pos 0 = cid)
    (hcn : alookup t.nodes cid = some cn) :
    (TrackPlacement t pos).nodes =
      (compactLoop ((ainsert t.nodes cid { cn with alive := false }).length + 1)
        (ainsert t.nodes cid { cn with alive := false })
        t.genomes t.genome_counts cid).1 := by
  subst hgc
  simp only [TrackPlacement, hcn, Option.getD_some]

theorem TP_genomes {G : Type} [DecidableEq G] (t : PrunedState G) (pos cid : Nat)
    {cn : Node G} (hgc : (genResize t.generation_since_update pos).getD pos 0 = cid)
    (hcn : alookup t.nodes cid = some cn) :
    (TrackPlacement t pos).genomes =
      (compactLoop ((ainsert t.nodes cid { cn with alive := false }).length + 1)
        (ainsert t.nodes cid { cn with alive := false })
        t.genomes t.genome_counts cid).2.1 := by
  subst hgc
  simp only [TrackPlacement, hcn, Option.getD_some]

theorem TP_counts {G : Type} [DecidableEq G] (t : PrunedState G) (pos cid : Nat)
    {cn : Node G} (hgc : (genResize t.generation_since_update pos).getD pos 0 = cid)
    (hcn : alookup t.nodes cid = some cn) :
    (TrackPlacement t pos).genome_counts =
      (compactLoop ((ainsert t.nodes cid { cn with alive := false }).length + 1)
        (ainsert t.nodes cid { cn with alive := false })
        t.genomes t.genome_counts cid).2.2.1 := by
  subst hgc
  simp only [TrackPlacement, hcn, Option.getD_some]

theorem TP_lc {G : Type} [DecidableEq G] (t : PrunedState G) (pos cid : Nat)
    {cn : Node G} (hgc : (genResize t.generation_since_update pos).getD pos 0 = cid)
    (hcn : alookup t.nodes cid = some cn) :
    (TrackPlacement t pos).last_coalesence =
      (if t.inject then t.last_coalesence
       else coalLoop
        (((compactLoop ((ainsert t.nodes cid { cn with alive := false }).length + 1)
          (ainsert t.nodes cid { cn with alive := false })
          t.genomes t.genome_counts cid).1).length + 1)
        ((compactLoop ((ainsert t.nodes cid { cn with alive := false }).length + 1)
          (ainsert t.nodes cid { cn with alive := false })
          t.genomes t.genome_counts cid).1)
        t.last_coalesence
        ((compactLoop ((ainsert t.nodes cid { cn with alive := false }).length + 1)
          (ainsert t.nodes cid { cn with alive := false })
          t.genomes t.genome_counts cid).2.2.2)) := by
  subst hgc
  simp only [TrackPlacement, hcn, Option.getD_some]

theorem TP_gen {G : Type} [DecidableEq G] (t : PrunedState G) (pos cid : Nat)
    {cn : Node G} (hgc : (genResize t.generation_since_update pos).getD pos 0 = cid)
    (hcn : alookup t.nodes cid = some cn) :
    (TrackPlacement t pos).generation_since_update =
      (genResize (genResize t.generation_since_update pos) pos).set pos t.next_org_id := by
  subst hgc
  simp only [TrackPlacement, hcn, Option.getD_some]

theorem TP_next {G : Type} [DecidableEq G] (t : PrunedState G) (pos : Nat) :
    (TrackPlacement t pos).next = t.next := rfl

/-- `TrackPlacement` preserves the tracker invariant whenever the freshly
added organism's node (`next_org_id`) is alive, its id exceeds every slot
entry, and its id is below `next` — exactly the state in which every event
calls it.  The new `last_coalesence` is related to the old one by
`CoalSteps` in the resulting node map. -/
theorem trackPlacement_inv {G : Type} [DecidableEq G] {t : PrunedState G} (hInv : Inv t)
    (pos : Nat)
    (hfa : ∃ fn : Node G, alookup t.nodes t.next_org_id = some fn ∧ fn.alive = true)
    (hgenlt : ∀ k, k < t.generation_since_update.length →
      t.generation_since_update.getD k 0 < t.next_org_id)
    (hfreshlt : t.next_org_id < t.next) :
    Inv (TrackPlacement t pos) ∧
    CoalSteps (TrackPlacement t pos).nodes t.last_coalesence
      (TrackPlacement t pos).last_coalesence := by
  obtain ⟨fn, hf, hfal⟩ := hfa
  obtain ⟨n0, h0, h0p, h0id, h0al, h0g⟩ := hInv.map.root
  have hnextpos : 0 < t.next := hInv.map.keysLt _ _ h0
  have hfresh0 : t.next_org_id ≠ 0 := by
    intro he
    rw [he, h0] at hf
    cases hf
    simp [h0al] at hfal
  have hcidget : (genResize t.generation_since_update pos).getD pos 0 =
      if pos < t.generation_since_update.length
      then t.generation_since_update.getD pos 0 else 0 := genResize_getD _ _ _
  have hcidlt : (genResize t.generation_since_update pos).getD pos 0 < t.next_org_id := by
    rw [hcidget]
    by_cases hpl : pos < t.generation_since_update.length
    · rw [if_pos hpl]
      exact hgenlt pos hpl
    · rw [if_neg hpl]
      omega
  have hcidMem : ∃ cn : Node G,
      alookup t.nodes ((genResize t.generation_since_update pos).getD pos 0) = some cn := by
    rw [hcidget]
    by_cases hpl : pos < t.generation_since_update.length
    · rw [if_pos hpl]
      rcases hInv.genAlive pos hpl with hz | ⟨n, hn, _⟩
      · rw [hz]
        exact ⟨n0, h0⟩
      · exact ⟨n, hn⟩
    · rw [if_neg hpl]
      exact ⟨n0, h0⟩
  have hcid0 : (genResize t.generation_since_update pos).getD pos 0 ≠ 0 →
      pos < t.generation_since_update.length ∧
      (genResize t.generation_since_update pos).getD pos 0 =
        t.generation_since_update.getD pos 0 := by
    intro hne
    rw [hcidget] at hne ⊢
    by_cases hpl : pos < t.generation_since_update.length
    · rw [if_pos hpl]
      exact ⟨hpl, rfl⟩
    · rw [if_neg hpl] at hne
      exact absurd rfl hne
  obtain ⟨cn, hcn⟩ := hcidMem
  obtain ⟨cid, hgc⟩ : ∃ c, (genResize t.generation_since_update pos).getD pos 0 = c :=
    ⟨_, rfl⟩
  rw [hgc] at hcidlt hcn hcid0
  have hfne : cid ≠ t.next_org_id := by omega
  -- the marked map and the loop precondition
  have hlkM : ∀ j, alookup (ainsert t.nodes cid { cn with alive := false }) j =
      if cid = j then some { cn with alive := false } else alookup t.nodes j := fun j =>
    alookup_ainsert t.nodes cid _ j
  have hmonoM : ∀ (j : Nat) (m : Node G), alookup t.nodes j = some m →
      ∃ m', alookup (ainsert t.nodes cid { cn with alive := false }) j = some m' ∧
        m'.parent = m.parent ∧ ∀ x ∈ m.offspring, x ∈ m'.offspring := by
    intro j m hj
    rw [hlkM]
    by_cases h : cid = j
    · rw [if_pos h]
      refine ⟨_, rfl, ?_, ?_⟩
      · show cn.parent = m.parent
        rw [← h] at hj
        rw [hcn] at hj
        rw [Option.some.inj hj]
      · intro x hx
        show x ∈ cn.offspring
        rw [← h] at hj
        rw [hcn] at hj
        rw [Option.some.inj hj]
        exact hx
    · rw [if_neg h]
      exact ⟨m, hj, rfl, fun x hx => hx⟩
  have pre : LoopPre (ainsert t.nodes cid { cn with alive := false })
      t.genomes t.genome_counts t.next t.next_org_id cid := by
    refine ⟨mapInv_mark_dead hInv.map hcn, ?_, ?_, ?_, ?_, ?_, ?_⟩
    · intro i n hi hal hoff
      rw [hlkM] at hi
      by_cases h : cid = i
      · exact Or.inr h.symm
      · rw [if_neg h] at hi
        exact Or.inl (hInv.deadEmpty i n hi hal hoff)
    · intro i n hi hal
      rw [hlkM] at hi
      by_cases h : cid = i
      · rw [if_pos h] at hi
        cases hi
        exact Bool.noConfusion hal
      · rw [if_neg h] at hi
        exact rooted_of_map_le hmonoM (hInv.aliveRooted i n hi hal)
    · intro g
      rw [refCount_ainsert_same_genome { cn with alive := false } g hcn rfl]
      exact hInv.counts g
    · intro g
      rw [refCount_ainsert_same_genome { cn with alive := false } g hcn rfl]
      exact hInv.genomesIff g
    · refine ⟨fn, ?_, hfal⟩
      rw [hlkM, if_neg hfne]
      exact hf
    · refine ⟨{ cn with alive := false }, ?_⟩
      rw [hlkM, if_pos rfl]
  have post := compactLoop_post t.next t.next_org_id
    ((ainsert t.nodes cid { cn with alive := false }).length + 1)
    (ainsert t.nodes cid { cn with alive := false })
    t.genomes t.genome_counts cid pre (by omega)
  have hn := TP_nodes t pos cid hgc hcn
  have hgs := TP_genomes t pos cid hgc hcn
  have hcs := TP_counts t pos cid hgc hcn
  have hlc := TP_lc t pos cid hgc hcn
  have hgen := TP_gen t pos cid hgc hcn
  have hgen2 : genResize (genResize t.generation_since_update pos) pos =
      genResize t.generation_since_update pos :=
    genResize_of_pos_lt _ _ (genResize_pos_lt _ _)
  rw [hgen2] at hgen
  have hposlt : pos < (genResize t.generation_since_update pos).length :=
    genResize_pos_lt _ _
  have hgenlen : (TrackPlacement t pos).generation_since_update.length =
      (genResize t.generation_since_update pos).length := by
    rw [hgen]
    simp
  have hgetTP : ∀ k, (TrackPlacement t pos).generation_since_update.getD k 0 =
      if pos = k then t.next_org_id
      else if k < t.generation_since_update.length
        then t.generation_since_update.getD k 0 else 0 := by
    intro k
    rw [hgen, getD_set]
    by_cases hpk : pos = k
    · rw [if_pos ⟨hpk, hposlt⟩, if_pos hpk]
    · rw [if_neg (by intro hh; exact hpk hh.1), if_neg hpk, genResize_getD]
  -- a non-`pos` slot entry is distinct from the displaced id unless zero
  have hvne : ∀ k, k ≠ pos → k < t.generation_since_update.length →
      t.generation_since_update.getD k 0 ≠ 0 →
      t.generation_since_update.getD k 0 ≠ cid := by
    intro k hk hklen hv0 he
    by_cases hz : cid = 0
    · exact hv0 (hz ▸ he)
    · obtain ⟨hpl, hce⟩ := hcid0 hz
      rw [hce] at he
      have := hInv.genDistinct k pos hklen hpl hk he
      exact hv0 this
  refine ⟨⟨?_, ?_, ?_, ?_, ?_, ?_, ?_, ?_⟩, ?_⟩
  · -- map
    rw [TP_next]
    rw [hn]
    exact post.map
  · -- deadEmpty
    intro i n hi hal hoff
    rw [hn] at hi
    exact post.deadEmpty i n hi hal hoff
  · -- aliveRooted
    intro i n hi hal
    rw [hn] at hi ⊢
    exact post.aliveRooted i n hi hal
  · -- counts
    intro g
    rw [hcs, hn]
    exact post.counts g
  · -- genomesIff
    intro g
    rw [hgs, hn]
    exact post.genomesIff g
  · -- genAlive
    intro k hk
    rw [hgetTP k]
    by_cases hpk : pos = k
    · rw [if_pos hpk]
      obtain ⟨fn', hfn', hal'⟩ := post.freshAlive
      refine Or.inr ⟨fn', ?_, hal'⟩
      rw [hn]
      exact hfn'
    · rw [if_neg hpk]
      by_cases hklen : k < t.generation_since_update.length
      · rw [if_pos hklen]
        rcases hInv.genAlive k hklen with hz | ⟨n, hnl, hal⟩
        · exact Or.inl hz
        · by_cases hv0 : t.generation_since_update.getD k 0 = 0
          · exact Or.inl hv0
          · have hne := hvne k (fun hh => hpk hh.symm) hklen hv0
            have hn1 : alookup (ainsert t.nodes cid { cn with alive := false })
                (t.generation_since_update.getD k 0) = some n := by
              rw [hlkM, if_neg (fun hh => hne hh.symm)]
              exact hnl
            obtain ⟨n', hn', hal'⟩ := post.alivePreserved _ _ hn1 hal
            refine Or.inr ⟨n', ?_, hal'⟩
            rw [hn]
            exact hn'
      · rw [if_neg hklen]
        exact Or.inl rfl
  · -- genLt
    intro k hk
    rw [hgetTP k, TP_next]
    by_cases hpk : pos = k
    · rw [if_pos hpk]
      exact hfreshlt
    · rw [if_neg hpk]
      by_cases hklen : k < t.generation_since_update.length
      · rw [if_pos hklen]
        exact hInv.genLt k hklen
      · rw [if_neg hklen]
        exact hnextpos
  · -- genDistinct
    intro k l hk hl hkl
    rw [hgetTP k, hgetTP l]
    by_cases hpk : pos = k
    · rw [if_pos hpk]
      by_cases hpl : pos = l
      · exact absurd (hpk.symm.trans hpl) hkl
      · rw [if_neg hpl]
        by_cases hllen : l < t.generation_since_update.length
        · rw [if_pos hllen]
          have := hgenlt l hllen
          intro he
          omega
        · rw [if_neg hllen]
          intro he
          omega
    · rw [if_neg hpk]
      by_cases hpl : pos = l
      · rw [if_pos hpl]
        by_cases hklen : k < t.generation_since_update.length
        · rw [if_pos hklen]
          have := hgenlt k hklen
          intro he
          omega
        · rw [if_neg hklen]
          intro he
          omega
      · rw [if_neg hpl]
        by_cases hklen : k < t.generation_since_update.length
        · rw [if_pos hklen]
          by_cases hllen : l < t.generation_since_update.length
          · rw [if_pos hllen]
            exact hInv.genDistinct k l hklen hllen hkl
          · rw [if_neg hllen]
            intro he
            exact he
        · rw [if_neg hklen]
          by_cases hllen : l < t.generation_since_update.length
          · rw [if_pos hllen]
            intro he
            exact he.symm ▸ rfl
          · rw [if_neg hllen]
            intro _
            rfl
  · -- coalescence steps
    rw [hn, hlc]
    by_cases hinj : t.inject
    · rw [if_pos hinj]
      exact CoalSteps.refl _
    · rw [if_neg hinj]
      exact coalLoop_coalSteps _ post.map.idField _ _ _

/-! ### Events preserve the invariant; `run` states satisfy it -/

theorem inv_regs {G : Type} [DecidableEq G] {s : PrunedState G} (h : Inv s) (a : Nat)
    (c : Bool) : Inv { s with next_org_id := a, inject := c } :=
  ⟨h.map, h.deadEmpty, h.aliveRooted, h.counts, h.genomesIff, h.genAlive, h.genLt,
    h.genDistinct⟩

theorem inv_npid {G : Type} [DecidableEq G] {s : PrunedState G} (h : Inv s) (b : Nat) :
    Inv { s with next_parent_id := b } :=
  ⟨h.map, h.deadEmpty, h.aliveRooted, h.counts, h.genomesIff, h.genAlive, h.genLt,
    h.genDistinct⟩

/-- One event preserves the invariant, and moves `last_coalesence` only
along `CoalSteps` descents in the resulting node map. -/
theorem inv_step {G : Type} [DecidableEq G] {s : PrunedState G} (hInv : Inv s) (e : Ev G) :
    Inv (step s e) ∧
    CoalSteps (step s e).nodes s.last_coalesence (step s e).last_coalesence := by
  cases e with
  | update => exact ⟨hInv, CoalSteps.refl _⟩
  | inj org pos =>
    obtain ⟨n0, h0, h0p, h0id, h0al, h0g⟩ := hInv.map.root
    obtain ⟨hI2, hfresh, hold, hparl⟩ := addOrganism_inv hInv org h0 (Or.inl rfl)
    obtain ⟨t, ht⟩ : ∃ t : PrunedState G, t = { (AddOrganism s org 0).1 with
        next_org_id := (AddOrganism s org 0).2, inject := true } := ⟨_, rfl⟩
    have hT_nodes : t.nodes = (AddOrganism s org 0).1.nodes := by
      subst ht
      rfl
    have hT_frid : t.next_org_id = s.next := by
      subst ht
      rfl
    have hT_next : t.next = s.next + 1 := by
      subst ht
      rfl
    have hT_gen : t.generation_since_update = s.generation_since_update := by
      subst ht
      rfl
    have hT_lc : t.last_coalesence = s.last_coalesence := by
      subst ht
      rfl
    have hInvT : Inv t := by
      rw [ht]
      exact inv_regs hI2 _ _
    have hfaT : ∃ fn : Node G, alookup t.nodes t.next_org_id = some fn ∧
        fn.alive = true := by
      rw [hT_nodes, hT_frid]
      exact ⟨⟨0, s.next, true, some org, []⟩, hfresh, rfl⟩
    have hgenltT : ∀ k, k < t.generation_since_update.length →
        t.generation_since_update.getD k 0 < t.next_org_id := by
      intro k hk
      rw [hT_gen] at hk
      rw [hT_gen, hT_frid]
      exact hInv.genLt k hk
    have hfreshltT : t.next_org_id < t.next := by
      rw [hT_frid, hT_next]
      omega
    obtain ⟨hIf, hcs⟩ := trackPlacement_inv hInvT pos hfaT hgenltT hfreshltT
    have hse : step s (Ev.inj org pos) = TrackPlacement t pos := by
      subst ht
      rfl
    rw [hse]
    rw [hT_lc] at hcs
    exact ⟨hIf, hcs⟩
  | birth slot org pos =>
    obtain ⟨n0, h0, h0p, h0id, h0al, h0g⟩ := hInv.map.root
    have hparfacts : ∃ pn : Node G,
        alookup s.nodes (s.generation_since_update.getD slot 0) = some pn ∧
        (s.generation_since_update.getD slot 0 = 0 ∨ pn.alive = true) := by
      by_cases hsl : slot < s.generation_since_update.length
      · rcases hInv.genAlive slot hsl with hz | ⟨n, hn, hal⟩
        · refine ⟨n0, ?_, Or.inl hz⟩
          rw [hz]
          exact h0
        · exact ⟨n, hn, Or.inr hal⟩
      · have hz : s.generation_since_update.getD slot 0 = 0 :=
          getD_lt_length _ _ (not_lt.1 hsl)
        refine ⟨n0, ?_, Or.inl hz⟩
        rw [hz]
        exact h0
    obtain ⟨pn, hpn, hpalive⟩ := hparfacts
    obtain ⟨s1, hs1⟩ : ∃ s1 : PrunedState G, s1 = { s with
        next_parent_id := s.generation_since_update.getD slot 0 } := ⟨_, rfl⟩
    have hInv1 : Inv s1 := by
      rw [hs1]
      exact inv_npid hInv _
    have hs1_nodes : s1.nodes = s.nodes := by
      subst hs1
      rfl
    have hs1_next : s1.next = s.next := by
      subst hs1
      rfl
    have hs1_gen : s1.generation_since_update = s.generation_since_update := by
      subst hs1
      rfl
    have hs1_lc : s1.last_coalesence = s.last_coalesence := by
      subst hs1
      rfl
    have hs1_npid : s1.next_parent_id = s.generation_since_update.getD slot 0 := by
      subst hs1
      rfl
    have hpn1 : alookup s1.nodes s1.next_parent_id = some pn := by
      rw [hs1_nodes, hs1_npid]
      exact hpn
    have hpalive1 : s1.next_parent_id = 0 ∨ pn.alive = true := by
      rw [hs1_npid]
      exact hpalive
    obtain ⟨hI2, hfresh, hold, hparl⟩ := addOrganism_inv hInv1 org hpn1 hpalive1
    obtain ⟨t, ht⟩ : ∃ t : PrunedState G, t = { (AddOrganism s1 org s1.next_parent_id).1 with
        next_org_id := (AddOrganism s1 org s1.next_parent_id).2, inject := false } := ⟨_, rfl⟩
    have hT_nodes : t.nodes = (AddOrganism s1 org s1.next_parent_id).1.nodes := by
      subst ht
      rfl
    have hT_frid : t.next_org_id = s1.next := by
      subst ht
      rfl
    have hT_next : t.next = s1.next + 1 := by
      subst ht
      rfl
    have hT_gen : t.generation_since_update = s1.generation_since_update := by
      subst ht
      rfl
    have hT_lc : t.last_coalesence = s1.last_coalesence := by
      subst ht
      rfl
    have hInvT : Inv t := by
      rw [ht]
      exact inv_regs hI2 _ _
    have hfaT : ∃ fn : Node G, alookup t.nodes t.next_org_id = some fn ∧
        fn.alive = true := by
      rw [hT_nodes, hT_frid, hs1_next]
      refine ⟨⟨s1.next_parent_id, s1.next, true, some org, []⟩, ?_, rfl⟩
      rw [← hs1_next]
      exact hfresh
    have hgenltT : ∀ k, k < t.generation_since_update.length →
        t.generation_since_update.getD k 0 < t.next_org_id := by
      intro k hk
      rw [hT_gen, hs1_gen] at hk
      rw [hT_gen, hT_frid, hs1_gen, hs1_next]
      exact hInv.genLt k hk
    have hfreshltT : t.next_org_id < t.next := by
      rw [hT_frid, hT_next]
      omega
    obtain ⟨hIf, hcs⟩ := trackPlacement_inv hInvT pos hfaT hgenltT hfreshltT
    have hse : step s (Ev.birth slot org pos) = TrackPlacement t pos := by
      subst ht
      subst hs1
      rfl
    rw [hse]
    rw [hT_lc, hs1_lc] at hcs
    exact ⟨hIf, hcs⟩

/-- The initial state satisfies the invariant. -/
theorem inv_setup (G : Type) [DecidableEq G] : Inv (Setup G) := by
  have hlk : ∀ (i : Nat) (n : Node G), alookup (Setup G).nodes i = some n →
      i = 0 ∧ n = ⟨0, 0, false, none, []⟩ := by
    intro i n h
    simp only [Setup] at h
    by_cases h0 : (0 : Nat) = i
    · subst h0
      rw [alookup_cons_self] at h
      exact ⟨rfl, (Option.some.inj h).symm⟩
    · rw [alookup_cons_ne _ _ h0] at h
      simp [alookup] at h
  refine ⟨⟨?_, ?_, ?_, ?_, ?_, ?_, ?_, ?_, ?_⟩, ?_, ?_, ?_, ?_, ?_, ?_, ?_⟩
  · simp [Setup]
  · exact ⟨⟨0, 0, false, none, []⟩, rfl, rfl, rfl, rfl, rfl⟩
  · intro i n h
    obtain ⟨hi, hn⟩ := hlk i n h
    subst hi
    subst hn
    rfl
  · intro i n h hi0
    obtain ⟨hi, _⟩ := hlk i n h
    exact absurd hi hi0
  · intro i n h
    obtain ⟨hi, hn⟩ := hlk i n h
    subst hi
    subst hn
    exact ⟨⟨0, 0, false, none, []⟩, rfl⟩
  · intro i n h
    obtain ⟨hi, _⟩ := hlk i n h
    subst hi
    exact Nat.zero_lt_one
  · intro i n h hi0
    obtain ⟨hi, _⟩ := hlk i n h
    exact absurd hi hi0
  · intro i n c h hc
    obtain ⟨_, hn⟩ := hlk i n h
    subst hn
    exact absurd hc (List.not_mem_nil c)
  · intro i n p h hi0 _
    obtain ⟨hi, _⟩ := hlk i n h
    exact absurd hi hi0
  · intro i n h _ _
    exact (hlk i n h).1
  · intro i n h hal
    obtain ⟨_, hn⟩ := hlk i n h
    subst hn
    exact Bool.noConfusion hal
  · intro g
    rfl
  · intro g
    simp [Setup, refCount]
  · intro k hk
    simp [Setup] at hk
  · intro k hk
    simp [Setup] at hk
  · intro k l hk _ _ _
    simp [Setup] at hk

theorem inv_foldl {G : Type} [DecidableEq G] :
    ∀ (es : List (Ev G)) (s : PrunedState G), Inv s → Inv (es.foldl step s)
  | [], _, h => h
  | e :: es, s, h => inv_foldl es _ (inv_step h e).1

/-- Every reachable state of the pruned tracker satisfies the invariant. -/
theorem inv_run {G : Type} [DecidableEq G] (es : List (Ev G)) : Inv (run es) :=
  inv_foldl es (Setup G) (inv_setup G)

theorem run_append_step {G : Type} [DecidableEq G] (es : List (Ev G)) (e : Ev G) :
    run (es ++ [e]) = step (run es) e := by
  unfold run
  rw [List.foldl_append]
  rfl

/-! ### Trace walk facts -/

theorem traceGo_not_mem_zero {G : Type} (fuel : Nat) (ns : List (Nat × Node G)) (i : Nat) :
    (0 : Nat) ∉ traceGo fuel ns i := by
  induction fuel generalizing i with
  | zero => simp [traceGo]
  | succ f ih =>
    intro hmem
    cases hl : alookup ns i with
    | none =>
      simp only [traceGo, hl] at hmem
      exact List.not_mem_nil _ hmem
    | some n =>
      by_cases hz : n.id = 0
      · simp only [traceGo, hl, if_pos hz] at hmem
        exact List.not_mem_nil _ hmem
      · simp only [traceGo, hl, if_neg hz] at hmem
        rcases List.mem_cons.1 hmem with h | h
        · exact hz h.symm
        · exact ih n.parent h

/-! ### The elite-selection multimap -/

theorem mmInsert_perm {F : Type} [LinearOrder F] (p : F × Nat) (l : List (F × Nat)) :
    (mmInsert p l).Perm (p :: l) := by
  induction l with
  | nil => exact List.Perm.refl _
  | cons q t ih =>
    by_cases h : p.1 < q.1
    · simp only [mmInsert, if_pos h]
      exact List.Perm.refl _
    · simp only [mmInsert, if_neg h]
      exact (ih.cons q).trans (List.Perm.swap p q t)

theorem fitMap_succ {F : Type} [LinearOrder F] (fit : Nat → F) (n : Nat) :
    fitMap fit (n + 1) = mmInsert (fit n, n) (fitMap fit n) := by
  unfold fitMap
  rw [List.range_succ, List.foldl_append]
  rfl

theorem fitMap_perm {F : Type} [LinearOrder F] (fit : Nat → F) (n : Nat) :
    (fitMap fit n).Perm ((List.range n).map (fun i => (fit i, i))) := by
  induction n with
  | zero => exact List.Perm.refl _
  | succ n ih =>
    rw [fitMap_succ, List.range_succ, List.map_append]
    exact ((mmInsert_perm _ _).trans (ih.cons _)).trans
      (List.perm_append_singleton _ _).symm

theorem mem_mmInsert {F : Type} [LinearOrder F] {p x : F × Nat} {l : List (F × Nat)} :
    x ∈ mmInsert p l ↔ x = p ∨ x ∈ l := by
  rw [(mmInsert_perm p l).mem_iff, List.mem_cons]

theorem mmInsert_pairwise {F : Type} [LinearOrder F] (p : F × Nat) (l : List (F × Nat))
    (hl : l.Pairwise fitOrdStrict) (hp : ∀ q ∈ l, q.2 < p.2) :
    (mmInsert p l).Pairwise fitOrdStrict := by
  induction l with
  | nil => simp [mmInsert]
  | cons q t ih =>
    rcases List.pairwise_cons.1 hl with ⟨hq, ht⟩
    by_cases h : p.1 < q.1
    · simp only [mmInsert, if_pos h]
      refine List.Pairwise.cons ?_ hl
      intro x hx
      rcases List.mem_cons.1 hx with hxq | hxt
      · exact Or.inl (hxq ▸ h)
      · have hqx := hq x hxt
        rcases hqx with h2 | h2
        · exact Or.inl (lt_trans h h2)
        · exact Or.inl (by rw [← h2.1]; exact h)
    · simp only [mmInsert, if_neg h]
      refine List.Pairwise.cons ?_ (ih ht (fun a ha => hp a (List.mem_cons_of_mem _ ha)))
      intro x hx
      rcases mem_mmInsert.1 hx with hxp | hxt
      · subst hxp
        rcases lt_or_eq_of_le (not_lt.1 h) with h2 | h2
        · exact Or.inl h2
        · exact Or.inr ⟨h2, hp q (List.mem_cons_self q t)⟩
      · exact hq x hxt

theorem fitMap_pairwise {F : Type} [LinearOrder F] (fit : Nat → F) (n : Nat) :
    (fitMap fit n).Pairwise fitOrdStrict ∧ ∀ q ∈ fitMap fit n, q.2 < n := by
  induction n with
  | zero => exact ⟨List.Pairwise.nil, by intro q hq; cases hq⟩
  | succ n ih =>
    rw [fitMap_succ]
    constructor
    · exact mmInsert_pairwise _ _ ih.1 (fun q hq => ih.2 q hq)
    · intro q hq
      rcases mem_mmInsert.1 hq with h | h
      · subst h; exact Nat.lt_succ_self n
      · exact Nat.lt_succ_of_lt (ih.2 q h)

theorem fitMap_reverse_eq {F : Type} [LinearOrder F] (fit : Nat → F) (n : Nat) :
    (fitMap fit n).reverse = eliteRanking fit n := by
  refine List.eq_of_perm_of_sorted ?_ ?_ (List.sorted_insertionSort fitOrdRev _)
  · exact ((fitMap fit n).reverse_perm.trans (fitMap_perm fit n)).trans
      (List.perm_insertionSort fitOrdRev _).symm
  · show List.Pairwise fitOrdRev (fitMap fit n).reverse
    rw [List.pairwise_reverse]
    refine (fitMap_pairwise fit n).1.imp ?_
    intro a b hab
    rcases hab with h | h
    · exact Or.inl h
    · exact Or.inr ⟨h.1.symm, Nat.le_of_lt h.2⟩

theorem length_flatMap_replicate {F : Type} (c : Nat) (l : List (F × Nat)) :
    (l.flatMap (fun p => List.replicate c p.2)).length = l.length * c := by
  induction l with
  | nil => simp
  | cons x t ih => simp [List.flatMap_cons, ih, Nat.succ_mul, Nat.add_comm]

/-! ### Grid empty-slot facts -/

theorem mem_GetValidOrgIndices {Org : Type} (pop : List (Option Org)) (i : Nat) :
    i ∈ GetValidOrgIndices pop ↔ i < pop.length ∧ pop.getD i none = none := by
  unfold GetValidOrgIndices
  rw [List.mem_filter, List.mem_range]
  simp [Option.isNone_iff_eq_none]

theorem nodup_GetValidOrgIndices {Org : Type} (pop : List (Option Org)) :
    (GetValidOrgIndices pop).Nodup :=
  (List.nodup_range _).filter _

/-! ### The mutation loop against a straight pass -/

theorem mutateGo_append {Org R : Type} (mf : Org → R → Bool × Org × R) (t : List Org) :
    ∀ (pre : List Org) (count : Nat) (r : R) (fuel : Nat), t.length ≤ fuel →
      mutateGo mf fuel (pre ++ t) pre.length count r =
        (count + (mutateAll mf t r).1, pre ++ (mutateAll mf t r).2.1,
          (mutateAll mf t r).2.2) := by
  induction t with
  | nil =>
    intro pre count r fuel _
    cases fuel with
    | zero => simp [mutateGo, mutateAll]
    | succ f =>
      have hnone : (pre ++ ([] : List Org))[pre.length]? = none := by
        rw [List.append_nil]
        exact List.getElem?_eq_none (Nat.le_refl _)
      simp [mutateGo, hnone, mutateAll]
  | cons x xs ih =>
    intro pre count r fuel hf
    cases fuel with
    | zero => exact absurd hf (by simp)
    | succ f =>
      have hget : (pre ++ x :: xs)[pre.length]? = some x := by
        rw [List.getElem?_append_right (Nat.le_refl _)]
        simp
      have hset : (pre ++ x :: xs).set pre.length (mf x r).2.1 =
          (pre ++ [(mf x r).2.1]) ++ xs := by
        rw [List.set_append_right _ _ (Nat.le_refl _)]
        simp
      have hlen : pre.length + 1 = (pre ++ [(mf x r).2.1]).length := by simp
      have hf2 : xs.length ≤ f := by
        simp only [List.length_cons] at hf
        omega
      simp only [mutateGo, hget]
      rw [hset, hlen, ih (pre ++ [(mf x r).2.1]) _ _ f hf2]
      simp [mutateAll, List.append_assoc, Nat.add_assoc]

/-! ### The claims about the pruned lineage tracker -/

/-- **C1** — Pruned lineage tracker retention invariant: in every reachable
tracker state (after any sequence of fully processed events), a node whose
`alive` flag is false and whose `offspring` list is empty can only be the
root sentinel — every other such node has been removed from the node map
before `TrackPlacement` returned; every alive node is rooted (so every node
reachable by parent links from a live node is alive or has a non-empty
surviving-child set); and every offspring entry points to a present node
(pruned nodes are detached from their parents). -/
theorem C1_retention {G : Type} [DecidableEq G] (es : List (Ev G)) (i : Nat) (n : Node G)
    (h : alookup (run es).nodes i = some n) :
    (n.alive = false → n.offspring = [] → i = 0) ∧
    (n.alive = true → Rooted (run es).nodes i) ∧
    (∀ c ∈ n.offspring, ∃ cn : Node G, alookup (run es).nodes c = some cn ∧
      cn.parent = i) := by
  have hI := inv_run es
  refine ⟨fun hal hoff => hI.deadEmpty i n h hal hoff,
    fun hal => hI.aliveRooted i n h hal, fun c hc => ?_⟩
  obtain ⟨_, cn, hcn, hcp⟩ := hI.map.offChild i n c h hc
  exact ⟨cn, hcn, hcp⟩

/-- Witness for C1 at a concrete input: the root sentinel of the freshly
set-up tracker. -/
theorem C1_retention_witness :
    (((⟨0, 0, false, none, []⟩ : Node Nat).alive = false →
      (⟨0, 0, false, none, []⟩ : Node Nat).offspring = [] → (0 : Nat) = 0) ∧
    ((⟨0, 0, false, none, []⟩ : Node Nat).alive = true →
      Rooted (run ([] : List (Ev Nat))).nodes 0) ∧
    (∀ c ∈ (⟨0, 0, false, none, []⟩ : Node Nat).offspring,
      ∃ cn : Node Nat, alookup (run ([] : List (Ev Nat))).nodes c = some cn ∧
        cn.parent = 0)) :=
  C1_retention [] 0 ⟨0, 0, false, none, []⟩ (by rfl)

/-- **C2** — Coalescence pointer monotonicity: appending one more event to
any event sequence moves `last_coalesence` along `CoalSteps` in the
resulting node map — i.e. the new value is reached from the previous one by
descending (zero or more times) from a non-alive node with exactly one
surviving child branch to that child.  In particular it never reverts to an
ancestor of its previous value, and it only advances through nodes that
are dead with exactly one surviving child. -/
theorem C2_coalescence_monotone {G : Type} [DecidableEq G] (es : List (Ev G)) (e : Ev G) :
    CoalSteps (run (es ++ [e])).nodes (run es).last_coalesence
      (run (es ++ [e])).last_coalesence := by
  rw [run_append_step]
  exact (inv_step (inv_run es) e).2

/-- **C3** — Genome store refcount invariant: in every reachable tracker
state, for every genome value the stored count equals the number of lineage
nodes currently referencing it, and the value is present in the
deduplicated store iff at least one node references it. -/
theorem C3_genome_refcount {G : Type} [DecidableEq G] (es : List (Ev G)) (g : G) :
    getCount (run es).genome_counts g = (refCount (run es).nodes g : Int) ∧
    (g ∈ (run es).genomes ↔ refCount (run es).nodes g ≠ 0) :=
  ⟨(inv_run es).counts g, (inv_run es).genomesIff g⟩

/-- **C4** — Root sentinel invariant: after `Setup` and any sequence of
birth, injection and update events, the node with id 0 exists in the node
map, its `alive` flag is false, and it is its own parent (the compaction
loop never erases it). -/
theorem C4_root_sentinel {G : Type} [DecidableEq G] (es : List (Ev G)) :
    ∃ n0 : Node G, alookup (run es).nodes 0 = some n0 ∧ n0.alive = false ∧
      n0.parent = 0 ∧ n0.id = 0 := by
  obtain ⟨n0, h0, h0p, h0id, h0al, _⟩ := (inv_run es).map.root
  exact ⟨n0, h0, h0al, h0p, h0id⟩

/-- **C5** — `TraceLineageIDs`: in the §8 scenario (organism A injected at
slot 0 receiving id 1, then organism B born of the organism at slot 0 and
placed at slot 0, receiving id 2), `TraceLineageIDs(id(B))` returns exactly
`[id(B), 1]`, newest first; and on any node map whatsoever the walk never
includes the root id 0 (the `while (org->id)` exit). -/
theorem C5_trace_lineage :
    TraceLineageIDs (run [Ev.inj (5 : Nat) 0, Ev.birth 0 6 0]) 2 = [2, 1] ∧
    ∀ (G : Type) (fuel : Nat) (ns : List (Nat × Node G)) (i : Nat),
      (0 : Nat) ∉ traceGo fuel ns i := by
  constructor
  · rfl
  · intro G fuel ns i
    exact traceGo_not_mem_zero fuel ns i

/-- **C6** — Serial-transfer bottleneck: `AddOrgBirth` first checks the
current size against `max_size`; below the cap it just appends the newborn
(returning its position), at or above the cap it bottlenecks the
population down to `bottleneck_size` (a shuffle followed by truncation,
when it actually exceeds that size), increments `num_bottlenecks`, and only
then appends.  In the §8 scenario (`max_size = 10`, `bottleneck_size = 3`,
starting population `[1, 2]`), the first eight births fill the population
to ten organisms with no bottleneck, and the ninth triggers exactly one
bottleneck, leaving four organisms. -/
theorem C6_serial_transfer (shuffle : List Nat → List Nat)
    (hlen : ∀ l : List Nat, (shuffle l).length = l.length) :
    (∀ (st : STState Nat) (org : Nat),
      (st.pop.length < st.max_size →
        ST_AddOrgBirth shuffle st org = ({ st with pop := st.pop ++ [org] }, st.pop.length)) ∧
      (st.max_size ≤ st.pop.length →
        (ST_AddOrgBirth shuffle st org).1.pop =
          (if st.bottleneck_size < st.pop.length then
            (shuffle st.pop).take st.bottleneck_size else st.pop) ++ [org] ∧
        (ST_AddOrgBirth shuffle st org).1.num_bottlenecks = st.num_bottlenecks + 1 ∧
        (ST_AddOrgBirth shuffle st org).2 = min st.bottleneck_size st.pop.length)) ∧
    (ST_runBirths shuffle ⟨[1, 2], 10, 3, 0⟩ [3, 4, 5, 6, 7, 8, 9, 10]).pop =
      [1, 2, 3, 4, 5, 6, 7, 8, 9, 10] ∧
    (ST_runBirths shuffle ⟨[1, 2], 10, 3, 0⟩ [3, 4, 5, 6, 7, 8, 9, 10]).num_bottlenecks = 0 ∧
    (ST_AddOrgBirth shuffle
        (ST_runBirths shuffle ⟨[1, 2], 10, 3, 0⟩ [3, 4, 5, 6, 7, 8, 9, 10]) 11).1.pop =
      (shuffle [1, 2, 3, 4, 5, 6, 7, 8, 9, 10]).take 3 ++ [11] ∧
    (ST_AddOrgBirth shuffle
        (ST_runBirths shuffle ⟨[1, 2], 10, 3, 0⟩ [3, 4, 5, 6, 7, 8, 9, 10]) 11).1.pop.length = 4 ∧
    (ST_AddOrgBirth shuffle
        (ST_runBirths shuffle ⟨[1, 2], 10, 3, 0⟩ [3, 4, 5, 6, 7, 8, 9, 10]) 11).1.num_bottlenecks
      = 1 := by
  have hst8 : ST_runBirths shuffle ⟨[1, 2], 10, 3, 0⟩ [3, 4, 5, 6, 7, 8, 9, 10] =
      ⟨[1, 2, 3, 4, 5, 6, 7, 8, 9, 10], 10, 3, 0⟩ := by
    simp [ST_runBirths, ST_AddOrgBirth, DoBottleneck]
  refine ⟨?_, ?_, ?_, ?_, ?_, ?_⟩
  · intro st org
    constructor
    · intro h
      simp only [ST_AddOrgBirth, if_neg (not_le.2 h)]
    · intro h
      simp only [ST_AddOrgBirth, DoBottleneck, if_pos h]
      by_cases hb : st.pop.length ≤ st.bottleneck_size
      · rw [if_pos hb, if_neg (not_lt.2 hb)]
        refine ⟨rfl, rfl, ?_⟩
        omega
      · rw [if_neg hb, if_pos (not_le.1 hb)]
        refine ⟨rfl, rfl, ?_⟩
        simp only [List.length_take, hlen]
  · rw [hst8]
  · rw [hst8]
  · rw [hst8]
    simp [ST_AddOrgBirth, DoBottleneck]
  · rw [hst8]
    show ((shuffle [1, 2, 3, 4, 5, 6, 7, 8, 9, 10]).take 3 ++ [11]).length = 4
    rw [List.length_append, List.length_take, hlen]
    simp
  · rw [hst8]
    simp [ST_AddOrgBirth, DoBottleneck]

/-- Witness for C6 at a concrete input: the identity shuffle (a
length-preserving permutation). -/
theorem C6_serial_transfer_witness :
    (∀ l : List Nat, (id l : List Nat).length = l.length) ∧
    ((∀ (st : STState Nat) (org : Nat),
      (st.pop.length < st.max_size →
        ST_AddOrgBirth id st org = ({ st with pop := st.pop ++ [org] }, st.pop.length)) ∧
      (st.max_size ≤ st.pop.length →
        (ST_AddOrgBirth id st org).1.pop =
          (if st.bottleneck_size < st.pop.length then
            (id st.pop : List Nat).take st.bottleneck_size else st.pop) ++ [org] ∧
        (ST_AddOrgBirth id st org).1.num_bottlenecks = st.num_bottlenecks + 1 ∧
        (ST_AddOrgBirth id st org).2 = min st.bottleneck_size st.pop.length)) ∧
    (ST_runBirths id ⟨[1, 2], 10, 3, 0⟩ [3, 4, 5, 6, 7, 8, 9, 10]).pop =
      [1, 2, 3, 4, 5, 6, 7, 8, 9, 10] ∧
    (ST_runBirths id ⟨[1, 2], 10, 3, 0⟩ [3, 4, 5, 6, 7, 8, 9, 10]).num_bottlenecks = 0 ∧
    (ST_AddOrgBirth id
        (ST_runBirths id ⟨[1, 2], 10, 3, 0⟩ [3, 4, 5, 6, 7, 8, 9, 10]) 11).1.pop =
      (id [1, 2, 3, 4, 5, 6, 7, 8, 9, 10] : List Nat).take 3 ++ [11] ∧
    (ST_AddOrgBirth id
        (ST_runBirths id ⟨[1, 2], 10, 3, 0⟩ [3, 4, 5, 6, 7, 8, 9, 10]) 11).1.pop.length = 4 ∧
    (ST_AddOrgBirth id
        (ST_runBirths id ⟨[1, 2], 10, 3, 0⟩ [3, 4, 5, 6, 7, 8, 9, 10]) 11).1.num_bottlenecks
      = 1) :=
  ⟨fun _ => rfl, C6_serial_transfer id (fun _ => rfl)⟩

/-- **C7** — `EliteSelect` (amended): walking the fitness multimap from
`rbegin` visits the `(fitness, index)` pairs in descending fitness order
with ties broken by *reverse* insertion order — among equal fitnesses the
*later-inserted* (larger-index) organism ranks first, because
`multimap::insert` places an equal key after its equal range and reverse
iteration then meets it first.  `EliteSelect` births `copy_count` copies of
each of the top `e_count` organisms of that ranking and produces
`min e_count n * copy_count` births in total.  In the §8 scenario
(fitnesses 1, 5, 3, 2, 4, `e_count = 2`, `copy_count = 3`) the two elites
are the organisms with fitness 5 and 4 — indices 1 and 4 — three copies
each. -/
theorem C7_elite_select :
    (∀ (F : Type) [LinearOrder F] (fit : Nat → F) (n e_count copy_count : Nat),
      EliteSelect fit n e_count copy_count =
        ((eliteRanking fit n).take e_count).flatMap
          (fun p => List.replicate copy_count p.2) ∧
      (EliteSelect fit n e_count copy_count).length = min e_count n * copy_count) ∧
    EliteSelect fit5 5 2 3 = [1, 1, 1, 4, 4, 4] := by
  constructor
  · intro F _ fit n e_count copy_count
    constructor
    · unfold EliteSelect
      rw [fitMap_reverse_eq]
    · unfold EliteSelect
      rw [length_flatMap_replicate, List.length_take, List.length_reverse,
        (fitMap_perm fit n).length_eq, List.length_map, List.length_range]
  · decide

/-- Counterexample to C7's tie-breaking clause as stated: with two
organisms of equal fitness and one elite slot, `EliteSelect` births
organism 1 (the later insertion), while a ranking whose ties are broken
stably by insertion order would birth organism 0. -/
theorem C7_elite_counterexample :
    EliteSelect (fun _ => (5 : Int)) 2 1 1 = [1] ∧
    EliteSelectStable (fun _ => (5 : Int)) 2 1 1 = [0] := by
  constructor <;> decide

/-- **C8** — Grid `AddOrg` (amended): whenever the grid still has an empty
slot (the random draw `r` indexes into the non-empty `empty_spots` list),
the newborn is placed into an *empty* slot — the one at position `r` of
`GetValidOrgIndices`, which lists exactly the in-range indices whose slot
is empty, without duplicates — and that slot index is returned.  A full
grid is not handled by uniform replacement: `empty_spots` is then empty
and the C++ indexes it out of bounds (modelled as `none`), see the
counterexample. -/
theorem C8_grid_addorg (Org : Type) (pop : List (Option Org)) (org : Org) (r : Nat)
    (h : r < (GetValidOrgIndices pop).length) :
    ∃ idx : Nat, (GetValidOrgIndices pop)[r]? = some idx ∧
      Grid_AddOrg pop org r = some (idx, pop.set idx (some org)) ∧
      idx < pop.length ∧ pop.getD idx none = none ∧
      (∀ i : Nat, i ∈ GetValidOrgIndices pop ↔ i < pop.length ∧ pop.getD i none = none) ∧
      (GetValidOrgIndices pop).Nodup := by
  have hget : (GetValidOrgIndices pop)[r]? = some ((GetValidOrgIndices pop).get ⟨r, h⟩) :=
    List.getElem?_eq_getElem h
  have hmem : (GetValidOrgIndices pop).get ⟨r, h⟩ ∈ GetValidOrgIndices pop :=
    List.get_mem _ _ h
  have hchar := (mem_GetValidOrgIndices pop _).1 hmem
  refine ⟨(GetValidOrgIndices pop).get ⟨r, h⟩, hget, ?_, hchar.1, hchar.2,
    mem_GetValidOrgIndices pop, nodup_GetValidOrgIndices pop⟩
  unfold Grid_AddOrg
  rw [hget]

/-- Witness for C8 at a concrete input: a two-slot grid whose slot 0 is
empty. -/
theorem C8_grid_addorg_witness :
    0 < (GetValidOrgIndices ([none, some 0] : List (Option Nat))).length ∧
    ∃ idx : Nat, (GetValidOrgIndices ([none, some 0] : List (Option Nat)))[0]? = some idx ∧
      Grid_AddOrg ([none, some 0] : List (Option Nat)) 7 0 =
        some (idx, ([none, some 0] : List (Option Nat)).set idx (some 7)) ∧
      idx < ([none, some 0] : List (Option Nat)).length ∧
      ([none, some 0] : List (Option Nat)).getD idx none = none ∧
      (∀ i : Nat, i ∈ GetValidOrgIndices ([none, some 0] : List (Option Nat)) ↔
        i < ([none, some 0] : List (Option Nat)).length ∧
        ([none, some 0] : List (Option Nat)).getD i none = none) ∧
      (GetValidOrgIndices ([none, some 0] : List (Option Nat))).Nodup :=
  ⟨by decide, C8_grid_addorg Nat [none, some 0] 7 0 (by decide)⟩

/-- Counterexample to C8's full-grid clause as stated: on a full one-slot
grid there is no empty slot, `empty_spots` is empty, and `AddOrg` does not
replace a uniformly chosen occupant — the access is out of bounds
(modelled `none`). -/
theorem C8_grid_counterexample :
    Grid_AddOrg ([some 0] : List (Option Nat)) 1 0 = none ∧
    GetValidOrgIndices ([some 0] : List (Option Nat)) = [] := by
  constructor <;> rfl

/-- **C9** — `MutatePop` skips position 0: on any non-empty population it
leaves the organism in slot 0 untouched and performs exactly one
mutation-function pass over the tail, in order, threading the random
engine through the calls; the returned count is the number of those calls
that reported a mutation. -/
theorem C9_mutate_pop (Org R : Type) (mf : Org → R → Bool × Org × R) (o : Org)
    (t : List Org) (first_mut : Int) (r : R) :
    MutatePop mf (o :: t) first_mut r =
      ((mutateAll mf t r).1, o :: (mutateAll mf t r).2.1, (mutateAll mf t r).2.2) := by
  have h := mutateGo_append mf t [o] 0 r (t.length + 1) (Nat.le_succ _)
  unfold MutatePop
  simpa using h

/-- **C10** — The `first_mut` argument of `MutatePop` is dead: the loop
hard-codes its start index to 1, so any two values of `first_mut` (in
particular any value against the default 1) give identical results. -/
theorem C10_first_mut_ignored (Org R : Type) (mf : Org → R → Bool × Org × R)
    (pop : List Org) (first_mut : Int) (r : R) :
    MutatePop mf pop first_mut r = MutatePop mf pop 1 r := rfl

end EmpEvo
